import Mathlib

/-!
Verification of the htmlcomp library (htmlcomp/core.py, htmlcomp/elements.py).

The Python code is shallowly embedded: `Element` trees become the inductive
`Node`, Python dicts (which preserve insertion order) become association
lists with dict-style update semantics, Python sets of strings become lists
considered up to membership, and fallible operations return `Except PyErr`.
The streaming HTML tokenizer (`html.parser.HTMLParser`) and the
`xml.etree.ElementTree` HTML serializer are embedded at the character level,
restricted to the constructs the library exercises (start/end/self-closing
tags, double-quoted attribute values, character data with the four entities
`&amp; &lt; &gt; &quot;` that the serializer can emit; no comments,
declarations or script/style CDATA modes).
-/

namespace Htmlcomp

/-! ### Python dict model

Python dicts preserve insertion order; `dict.update` overwrites the value of
an existing key in place (keeping its position) and appends new keys. -/

def dict_set {α : Type} : List (String × α) → String → α → List (String × α)
  | [], k, v => [(k, v)]
  | (k', v') :: d, k, v => if k' = k then (k', v) :: d else (k', v') :: dict_set d k v

def dict_update {α : Type} (d upd : List (String × α)) : List (String × α) :=
  upd.foldl (fun acc kv => dict_set acc kv.1 kv.2) d

def dict_lookup {α : Type} (k : String) : List (String × α) → Option α
  | [] => none
  | (k', v) :: d => if k' = k then some v else dict_lookup k d

def dict_contains {α : Type} (k : String) (d : List (String × α)) : Bool :=
  (dict_lookup k d).isSome

/-- `del d[k]` -/
def dict_delete {α : Type} (k : String) : List (String × α) → List (String × α)
  | [] => []
  | (k', v) :: d => if k' = k then d else (k', v) :: dict_delete k d

/-! ### Attribute values and nodes

Attribute values in htmlcomp are heterogeneous; the library itself uses
plain strings and the `_class` set of string tokens.  A Python `set` is
unordered: `strSet l` stands for the set of members of `l`, and every
observation of it in this model (truthiness, `sorted`, `==`) is invariant
under reordering and duplication of `l`. -/

inductive AttrValue where
  | str (s : String)
  | strSet (tokens : List String)
deriving DecidableEq, Repr

/-- An element tree: children are either strings or elements
(`Element.children` "are typically elements ... or strings").
`elem name attributes children` is an `Element` with that name,
attribute dict and child list. -/
inductive Node where
  | str (s : String)
  | elem (name : String) (attributes : List (String × AttrValue)) (children : List Node)

/-- Python errors surfaced by the embedded operations.  `unknownType n` is
the `KeyError` raised by the registry lookup `Element.subclasses[n]` when
`n` has no registered descriptor (the spec's `UnknownType`);
`keyError`/`indexError`/`typeError` mirror the other Python exceptions. -/
inductive PyErr where
  | unknownType (name : String)
  | parseError (msg : String)
  | keyError (key : String)
  | indexError
  | typeError (msg : String)
deriving DecidableEq, Repr

/-! ### The type registry (elements.py)

Every subclass created by `component(name, void=...)` in elements.py
carries the same inherited behavior: `parse_funcs = {"_class": parse__class}`,
`str_funcs = {"_class": str__class}`, `transform` returning `None`, and
`default_attributes() = dict(_class=set())`.  Only the name and the void
flag vary, so a registry entry is just the void flag. -/

structure NodeType where
  void : Bool
deriving DecidableEq, Repr

def ALL_ELEMENTS : List String :=
  ["a", "abbr", "address", "area", "article", "aside", "audio", "b", "base",
   "bdi", "bdo", "blockquote", "body", "br", "button", "canvas", "caption",
   "cite", "code", "col", "colgroup", "data", "datalist", "dd", "del",
   "details", "dfn", "dialog", "div", "dl", "dt", "em", "embed", "fieldset",
   "figcaption", "figure", "footer", "form", "h1", "h2", "h3", "h4", "h5",
   "h6", "head", "header", "hgroup", "hr", "html", "i", "iframe", "img",
   "input", "ins", "kbd", "label", "legend", "li", "link", "main", "map",
   "mark", "math", "menu", "meta", "meter", "nav", "noscript", "object", "ol",
   "optgroup", "option", "output", "p", "param", "picture", "pre", "progress",
   "q", "rp", "rt", "ruby", "s", "samp", "script", "section", "select",
   "slot", "small", "source", "span", "strong", "style", "sub", "summary",
   "sup", "svg", "table", "tbody", "td", "template", "textarea", "tfoot",
   "th", "thead", "time", "title", "tr", "track", "u", "ul", "var", "video",
   "wbr"]

def VOID_ELEMENTS : List String :=
  ["area", "base", "br", "col", "embed", "hr", "img", "input", "link", "meta",
   "param", "source", "track", "wbr"]

/-- `Element.subclasses` after elements.py has been imported: the empty name
is the fragment type, all standard tag names are registered with their void
flag. -/
def subclasses (name : String) : Option NodeType :=
  if name = "" then some ⟨false⟩
  else if ALL_ELEMENTS.contains name then some ⟨VOID_ELEMENTS.contains name⟩
  else none

/-- ASCII lowercasing (`Char.toLower` lowercases `A`-`Z` and nothing
else).  Python's `str.lower()` also lowercases non-ASCII letters, so this
agrees with it exactly on ASCII text and is an under-approximation
elsewhere; every statement in this development that relies on the result
of a lowercasing (the registry names, which are ASCII, and the attribute
keys of the round-trip theorem, which `goodKey` restricts to ASCII) only
applies it where the two coincide. -/
def strToLower (s : String) : String := ⟨s.data.map Char.toLower⟩

/-! ### Attribute-name canonicalization (html_name_to_python and inverse) -/

/-- `keyword.iskeyword`: the Python 3 keyword list. -/
def pyKeywords : List String :=
  ["False", "None", "True", "and", "as", "assert", "async", "await",
   "break", "class", "continue", "def", "del", "elif", "else", "except",
   "finally", "for", "from", "global", "if", "import", "in", "is",
   "lambda", "nonlocal", "not", "or", "pass", "raise", "return", "try",
   "while", "with", "yield"]

def html_name_to_python (name : String) : String :=
  let t : String := ⟨name.data.map fun c => if c = '-' then '_' else c⟩
  if pyKeywords.contains t then "_" ++ t else t

def python_name_to_html (name : String) : String :=
  let t : String :=
    match name.data with
    | '_' :: rest => if pyKeywords.contains ⟨rest⟩ then ⟨rest⟩ else name
    | _ => name
  ⟨t.data.map fun c => if c = '_' then '-' else c⟩

/-! ### The class-set attribute codec (parse__class / str__class) -/

/-- Whitespace for Python `str.split()` with no arguments and for `\s` in
`re` string patterns: both test CPython's `Py_UNICODE_ISSPACE`, i.e.
`str.isspace()` — `0x09`-`0x0d`, `0x1c`-`0x1f`, space, `0x85` (NEL),
`0xa0` (NBSP), U+1680 (Ogham space mark), U+2000-U+200A (the en-quad to
hair-space family), U+2028 and U+2029 (line/paragraph separator),
U+202F (narrow no-break space), U+205F (medium mathematical space) and
U+3000 (ideographic space). -/
def pySpace (c : Char) : Bool :=
  [' ', '\t', '\n', '\r', '\x0b', '\x0c', '\x1c', '\x1d', '\x1e', '\x1f',
   '\x85', '\xa0', '\u1680', '\u2000', '\u2001', '\u2002', '\u2003',
   '\u2004', '\u2005', '\u2006', '\u2007', '\u2008', '\u2009', '\u200a',
   '\u2028', '\u2029', '\u202f', '\u205f', '\u3000'].contains c

def pySplitWsGo : List Char → List Char → List String
  | acc, [] => if acc.isEmpty then [] else [⟨acc.reverse⟩]
  | acc, c :: rest =>
    if pySpace c then
      if acc.isEmpty then pySplitWsGo [] rest
      else (⟨acc.reverse⟩ : String) :: pySplitWsGo [] rest
    else pySplitWsGo (c :: acc) rest

/-- Python `s.split()`: split on runs of whitespace, no empty tokens. -/
def pySplitWs (cs : List Char) : List String := pySplitWsGo [] cs

/-- `Element.parse__class`: `set(_class.split())`. -/
def parse__class (s : String) : AttrValue := .strSet (pySplitWs s.data)

/-- Code-point lexicographic `≤` on character lists: how Python compares
strings. -/
def strLeChars : List Char → List Char → Bool
  | [], _ => true
  | _ :: _, [] => false
  | a :: as, b :: bs => if a < b then true else if b < a then false else strLeChars as bs

def strLe (a b : String) : Bool := strLeChars a.data b.data

/-- Insert into a sorted list. -/
def insertSorted (s : String) : List String → List String
  | [] => [s]
  | t :: rest => if strLe s t then s :: t :: rest else t :: insertSorted s rest

/-- Python `sorted` on distinct string tokens. -/
def sortStrings (l : List String) : List String := l.foldr insertSorted []

/-- The distinct members of the list a `strSet` carries (which occurrence
survives is irrelevant: only the member set is ever observed). -/
def dedupStrings : List String → List String
  | [] => []
  | s :: rest => if rest.contains s then dedupStrings rest else s :: dedupStrings rest

/-- `" ".join` at the character level. -/
def classJoin : List String → List Char
  | [] => []
  | [t] => t.data
  | t :: rest => t.data ++ ' ' :: classJoin rest

/-- `Element.str__class`: `" ".join(sorted(_class))` for a non-empty set,
`None` (omit the attribute) for an empty one.  The argument list stands for
its member set: `sorted` enumerates the distinct members in order. -/
def str__class (l : List String) : Option String :=
  if l.isEmpty then none else some ⟨classJoin (sortStrings (dedupStrings l))⟩

/-! ### Element construction -/

/-- `Element.default_attributes()`: `dict(_class=set())`. -/
def default_attributes : List (String × AttrValue) := [("_class", AttrValue.strSet [])]

/-- `Element.__new__` (together with the no-op `__call__` for the initial
children/attributes): look up `args[0].lower()` in the registry — a missing
entry raises (`Element.subclasses[name]` is a `KeyError`, the spec's
`UnknownType`) — then start from `default_attributes()` and merge the
supplied attributes, and take the supplied children. -/
def elementNew (name : String) (children : List Node)
    (attributes : List (String × AttrValue)) : Except PyErr Node :=
  let nm := strToLower name
  match subclasses nm with
  | none => .error (.unknownType nm)
  | some _ => .ok (.elem nm (dict_update default_attributes attributes) children)

/-- `Element.copy`: `Element(self.name, *self.children, **self.attributes)`. -/
def elementCopy : Node → Except PyErr Node
  | .str _ => .error (.typeError "copy is an Element method")
  | .elem name attrs children => elementNew name children attrs

/-! ### Normalization (shallow_normalize / normalize) -/

/-- First loop of `Element.shallow_normalize`: every direct child that is an
`Element` with an empty name (a fragment) is replaced by its children. -/
def flattenFrag (children : List Node) : List Node :=
  children.flatMap fun c =>
    match c with
    | .elem "" _ cs => cs
    | c => [c]

/-- Second loop of `Element.shallow_normalize`, with the Python `normalized`
accumulator kept in reverse: empty strings are skipped, a string is merged
into a string at the end of the accumulator, everything else is appended. -/
def mergeStrsGo : List Node → List Node → List Node
  | acc, [] => acc.reverse
  | acc, .str s :: rest =>
    if s = "" then mergeStrsGo acc rest
    else
      match acc with
      | .str t :: acc' => mergeStrsGo (.str (t ++ s) :: acc') rest
      | _ => mergeStrsGo (.str s :: acc) rest
  | acc, c :: rest => mergeStrsGo (c :: acc) rest

/-- The children produced by `Element.shallow_normalize`. -/
def shallowNormChildren (cs : List Node) : List Node :=
  mergeStrsGo [] (flattenFrag cs)

/-- `Element.shallow_normalize` (in-place in Python; functional here). -/
def shallow_normalize : Node → Node
  | .str s => .str s
  | .elem n a c => .elem n a (shallowNormChildren c)

/-- `Element.normalize`: `for child in self: if isinstance(child, Element):
child.shallow_normalize()` followed by `self.shallow_normalize()`. -/
def normalize : Node → Node
  | .str s => .str s
  | .elem n a c =>
    shallow_normalize (.elem n a (c.map fun ch =>
      match ch with
      | .elem n' a' c' => shallow_normalize (.elem n' a' c')
      | ch => ch))

/-! ### Render

All types registered by elements.py inherit `Element.transform`, which
returns `None`, so `Element.render` on these trees always takes the
"no further transformation" path: `rendered = self.copy()`, render every
`Element` child of the copy in place, then `rendered.shallow_normalize()`.
(`Element.subclasses[self.name]` is looked up first; the embedding is used
under the hypothesis that every node's name is registered, where that lookup
succeeds.)  Note the copy starts from `default_attributes()` and merges the
node's attributes into it. -/
mutual

def render : Node → Node
  | .str s => .str s
  | .elem n a c =>
    shallow_normalize (.elem (strToLower n) (dict_update default_attributes a) (renderChildren c))

/-- The `for i, child in enumerate(rendered): if isinstance(child, Element):
rendered[i] = child.render()` loop. -/
def renderChildren : List Node → List Node
  | [] => []
  | .str s :: rest => .str s :: renderChildren rest
  | .elem n a c :: rest => render (.elem n a c) :: renderChildren rest

end

/-! ### Python structural equality (`Element.__eq__`)

Two elements are `==` iff names, attribute dicts and child lists are equal;
dict equality ignores insertion order, set equality is extensional, and an
element is never `==` to a string. -/

def pyEqAttrValue : AttrValue → AttrValue → Bool
  | .str a, .str b => a == b
  | .strSet a, .strSet b => a.all (fun x => b.contains x) && b.all (fun x => a.contains x)
  | _, _ => false

def pyEqAttrs (d1 d2 : List (String × AttrValue)) : Bool :=
  (d1.all fun kv =>
    match dict_lookup kv.1 d2 with
    | some w => pyEqAttrValue kv.2 w
    | none => false) &&
  (d2.all fun kv => dict_contains kv.1 d1)

mutual

def pyEqNode : Node → Node → Bool
  | .str a, .str b => a == b
  | .elem n1 a1 c1, .elem n2 a2 c2 => n1 == n2 && pyEqAttrs a1 a2 && pyEqChildren c1 c2
  | _, _ => false

def pyEqChildren : List Node → List Node → Bool
  | [], [] => true
  | c :: cs, d :: ds => pyEqNode c d && pyEqChildren cs ds
  | _, _ => false

end

/-! ### The claim's declarative description of the text cleanup

`shallow_normalize`'s second loop is claimed to "drop empty string children
and concatenate adjacent string children".  The two functions below state
that directly; the bridge lemmas prove the accumulator loop equal to them. -/

def dropEmptyStrs (cs : List Node) : List Node :=
  cs.filter fun c =>
    match c with
    | .str s => !(s == "")
    | _ => true

/-- Prepend a string onto a child list, concatenating it with a leading
string if there is one. -/
def strCons (s : String) (xs : List Node) : List Node :=
  match xs with
  | .str u :: r => .str (s ++ u) :: r
  | _ => .str s :: xs

/-- Concatenate maximal runs of adjacent strings into single strings. -/
def concatAdjacentStrs : List Node → List Node
  | [] => []
  | .str s :: rest => strCons s (concatAdjacentStrs rest)
  | c :: rest => c :: concatAdjacentStrs rest

/-- How the reversed accumulator of `mergeStrsGo` combines with an
already-cleaned remainder: a leading string of the remainder merges into a
trailing string of the accumulator. -/
def mergeOnto (acc res : List Node) : List Node :=
  match res with
  | [] => acc.reverse
  | .str s :: r =>
    match acc with
    | .str t :: acc' => acc'.reverse ++ (.str (t ++ s) :: r)
    | _ => acc.reverse ++ (.str s :: r)
  | c :: r => acc.reverse ++ (c :: r)

/-! ### Fragment-child detector (for the normalize claim) -/

def isFragment : Node → Bool
  | .elem "" _ _ => true
  | _ => false

mutual

/-- Whether some element node in the subtree (the node itself included) has
a direct fragment-typed child. -/
def subtreeHasFragChild : Node → Bool
  | .str _ => false
  | .elem _ _ cs => childrenHaveFrag cs

def childrenHaveFrag : List Node → Bool
  | [] => false
  | c :: rest => (isFragment c || subtreeHasFragChild c) || childrenHaveFrag rest

end

/-! ### Serialization (`Element.__str__` via `ElementTree.tostring(method="html")`) -/

/-- `xml.etree.ElementTree._escape_cdata` (the sequential replaces commute
with this character-wise map since no replacement output contains a
character replaced later). -/
def escape_cdata (cs : List Char) : List Char :=
  cs.flatMap fun c =>
    if c = '&' then "&amp;".data
    else if c = '<' then "&lt;".data
    else if c = '>' then "&gt;".data
    else [c]

/-- `xml.etree.ElementTree._escape_attrib_html`: `&`, `>` and `"` only. -/
def escape_attrib_html (cs : List Char) : List Char :=
  cs.flatMap fun c =>
    if c = '&' then "&amp;".data
    else if c = '>' then "&gt;".data
    else if c = '"' then "&quot;".data
    else [c]

/-- `xml.etree.ElementTree.HTML_EMPTY`: tags serialized without a close tag. -/
def HTML_EMPTY : List String :=
  ["area", "base", "basefont", "br", "col", "embed", "frame", "hr",
   "img", "input", "isindex", "link", "meta", "param", "source",
   "track", "wbr"]

/-- `str__class` applied to whatever value sits under the `_class` key.
On a string value Python's `sorted` enumerates its characters. -/
def str__classValue : AttrValue → Option String
  | .strSet l => str__class l
  | .str s =>
    if s = "" then none
    else some ⟨classJoin (sortStrings (s.data.map fun c => (⟨[c]⟩ : String)))⟩

/-- Python `str(value)` for the values this model represents.  A `set`
reaches the generic `str` only under a non-`_class` key, which the library
never produces; its hash-order-dependent repr is fixed arbitrarily here. -/
def pyStrAttrValue : AttrValue → String
  | .str s => s
  | .strSet l =>
    "\x7b" ++ String.intercalate ", "
      ((dedupStrings l).map fun t => "\x27" ++ t ++ "\x27") ++ "\x7d"

/-- The attribute list assembled by `Element._add_to_builder`: keys are
converted back to HTML names, `str_funcs` — for every registered type the
inherited `{"_class": str__class}` — is applied, with `None` dropping the
attribute; other values go through `str`. -/
def serializeAttrs (attrs : List (String × AttrValue)) : List (String × String) :=
  attrs.filterMap fun kv =>
    if kv.1 = "_class" then
      (str__classValue kv.2).map fun v => (python_name_to_html kv.1, v)
    else some (python_name_to_html kv.1, pyStrAttrValue kv.2)

/-- One serialized start-tag attribute: ` key="escaped-value"`. -/
def emitAttr (kv : String × String) : List Char :=
  ' ' :: kv.1.data ++ '=' :: '"' :: escape_attrib_html kv.2.data ++ ['"']

mutual

/-- `ElementTree._serialize_html` of the builder tree `_add_to_builder`
produces: start tag with the serialized attributes, then the children
(string children escaped — except a leading string child of `script`/`style`,
which `_serialize_html` writes raw — elements recursively), then a close tag
unless the lowercased tag is in `HTML_EMPTY`. -/
def emitNode : Node → List Char
  | .str s => escape_cdata s.data
  | .elem n a c =>
    '<' :: n.data ++ (serializeAttrs a).flatMap emitAttr ++ '>' ::
      (if strToLower n = "script" ∨ strToLower n = "style" then emitRaw c
       else emitChildren c) ++
      (if HTML_EMPTY.contains (strToLower n) then [] else '<' :: '/' :: n.data ++ ['>'])

/-- Inside `script`/`style` the builder's `elem.text` (a leading string
child) is written without escaping; the tails are still escaped. -/
def emitRaw : List Node → List Char
  | .str s :: rest => s.data ++ emitChildren rest
  | [] => []
  | c :: rest => emitNode c ++ emitChildren rest

def emitChildren : List Node → List Char
  | [] => []
  | c :: rest => emitNode c ++ emitChildren rest

end

/-- `Element.__str__`: render, serialize, and for a fragment root strip the
`<>` and `</>` of the synthetic empty tag (`string[2:-3]`). -/
def element_str (n : Node) : String :=
  let r := render n
  let cs := emitNode r
  match r with
  | .elem "" _ _ => ⟨(cs.take (cs.length - 3)).drop 2⟩
  | _ => ⟨cs⟩

/-! ### Tokenization (`html.parser.HTMLParser`, `convert_charrefs=True`)

The tokenizer is embedded at the character level.  Start tags follow
`tagfind_tolerant`/`attrfind_tolerant`, end tags `endtagfind` with the
tolerant fallback, character data runs up to the next `<` and is unescaped;
tag and attribute names are lowercased.  Comments, declarations and
processing instructions are skipped without an event (their handlers are
the inherited no-ops), and the `script`/`style` CDATA mode is not modeled
(the verified statements exclude those elements). -/

inductive Token where
  | startTag (tag : String) (attrs : List (String × String)) (selfClosing : Bool)
  | endTag (tag : String)
  | dataTok (s : String)
deriving DecidableEq, Repr

/-- A small list fact the termination arguments below use. -/
theorem length_dropWhile_le {α : Type} (p : α → Bool) (l : List α) :
    (l.dropWhile p).length ≤ l.length := by
  induction l with
  | nil => simp
  | cons c r ih =>
    rw [List.dropWhile_cons]
    split
    · exact Nat.le_trans ih (Nat.le_succ _)
    · exact Nat.le_refl _

/-- The recursion of `unescapeChars` on explicit fuel (one unit per emitted
character, so the input's length suffices); structural recursion keeps the
function kernel-reducible on concrete inputs. -/
def unescapeF : Nat → List Char → List Char
  | 0, _ => []
  | _, [] => []
  | fuel + 1, c :: rest =>
    if c = '&' then
      if rest.take 4 = "amp;".data then '&' :: unescapeF fuel (rest.drop 4)
      else if rest.take 3 = "amp".data then '&' :: unescapeF fuel (rest.drop 3)
      else if rest.take 3 = "lt;".data then '<' :: unescapeF fuel (rest.drop 3)
      else if rest.take 2 = "lt".data then '<' :: unescapeF fuel (rest.drop 2)
      else if rest.take 3 = "gt;".data then '>' :: unescapeF fuel (rest.drop 3)
      else if rest.take 2 = "gt".data then '>' :: unescapeF fuel (rest.drop 2)
      else if rest.take 5 = "quot;".data then '"' :: unescapeF fuel (rest.drop 5)
      else if rest.take 4 = "quot".data then '"' :: unescapeF fuel (rest.drop 4)
      else '&' :: unescapeF fuel rest
    else c :: unescapeF fuel rest

/-- The restriction of `html.unescape` to the character references the
serializer emits (`amp`, `lt`, `gt`, `quot`, with or without semicolon,
longest match first).  On serializer output every `&` starts one of these
with its semicolon, so this agrees with `html.unescape` there. -/
def unescapeChars (cs : List Char) : List Char := unescapeF cs.length cs

/-- Characters allowed after the first character of a tag name
(`tagfind_tolerant`). -/
def tagNameChar (c : Char) : Bool :=
  !(c = '\t' || c = '\n' || c = '\r' || c = '\x0c' || c = ' ' || c = '/' ||
    c = '>' || c = '\x00')

/-- Characters of an end-tag name (`endtagfind`). -/
def endTagNameChar (c : Char) : Bool :=
  c = '-' || c = '.' || c.isAlpha || c.isDigit || c = ':' || c = '_'

/-- Non-first characters of an attribute name (`attrfind_tolerant`). -/
def attrNameChar (c : Char) : Bool :=
  !(pySpace c || c = '/' || c = '=' || c = '>')

/-- How a start tag ended: `>`, `/>`, or neither (malformed). -/
inductive TagEnd where
  | gt
  | slashGt
  | bad
deriving DecidableEq, Repr

/-- The `attrfind_tolerant` loop of `parse_starttag`: skip whitespace and
stray slashes, stop at `>` or `/>`, otherwise read one attribute name, its
optional `\s*=+\s*` value (double- or single-quoted or bare; a missing
value is recorded as the empty string where Python keeps `None`), unescape
the value, lowercase the name, and continue.  The returned remainder is
what follows the tag. -/
def parseAttrsF : Nat → List Char → List (String × String) →
    List (String × String) × TagEnd × List Char
  | 0, _, acc => (acc.reverse, .bad, [])
  | _, [], acc => (acc.reverse, .bad, [])
  | fuel + 1, c :: rest, acc =>
    if pySpace c then parseAttrsF fuel rest acc
    else if c = '/' then
      if rest.head? = some '>' then (acc.reverse, .slashGt, rest.tail)
      else parseAttrsF fuel rest acc
    else if c = '>' then (acc.reverse, .gt, rest)
    else
      let nameL : String := strToLower ⟨c :: rest.takeWhile attrNameChar⟩
      let afterName := rest.dropWhile attrNameChar
      match afterName.dropWhile pySpace with
      | '=' :: r2 =>
        let r4 := (r2.dropWhile fun x => x = '=').dropWhile pySpace
        match r4 with
        | '"' :: r5 =>
          let v := r5.takeWhile fun x => !(x = '"')
          match r5.dropWhile fun x => !(x = '"') with
          | _ :: r7 => parseAttrsF fuel r7 ((nameL, ⟨unescapeChars v⟩) :: acc)
          | [] => (acc.reverse, .bad, [])
        | '\'' :: r5 =>
          let v := r5.takeWhile fun x => !(x = '\'')
          match r5.dropWhile fun x => !(x = '\'') with
          | _ :: r7 => parseAttrsF fuel r7 ((nameL, ⟨unescapeChars v⟩) :: acc)
          | [] => (acc.reverse, .bad, [])
        | _ =>
          let v := r4.takeWhile fun x => !(pySpace x || x = '>')
          let r8 := r4.dropWhile fun x => !(pySpace x || x = '>')
          parseAttrsF fuel r8 ((nameL, ⟨unescapeChars v⟩) :: acc)
      | _ => parseAttrsF fuel afterName ((nameL, "") :: acc)

/-- The attribute loop with adequate fuel (every iteration consumes at
least one character). -/
def parseAttrs (cs : List Char) (acc : List (String × String)) :
    List (String × String) × TagEnd × List Char :=
  parseAttrsF cs.length cs acc

/-- Skip past the next `>` (bogus comments, declarations, processing
instructions, and the tolerant end-tag recovery all do this). -/
def skipPastGt (cs : List Char) : List Char :=
  match cs.dropWhile fun c => !(c = '>') with
  | _ :: r => r
  | [] => []

/-- `parse_endtag` after the leading `</`: `endtagfind` is `</\s*name\s*>`;
when the `>` is not where `endtagfind` wants it the tolerant fallback still
reports the tag name and skips to the next `>`; a non-name start is a bogus
comment, skipped without an event. -/
def scanEndTag (cs : List Char) : Option Token × List Char :=
  match cs.dropWhile pySpace with
  | c :: r =>
    if c.isAlpha then
      let nameL : String := strToLower ⟨c :: r.takeWhile endTagNameChar⟩
      let r2 := r.dropWhile endTagNameChar
      match r2.dropWhile pySpace with
      | '>' :: r4 => (some (.endTag nameL), r4)
      | _ => (some (.endTag nameL), skipPastGt r2)
    else (none, skipPastGt (c :: r))
  | [] => (none, [])

/-- `parse_starttag` after `<` when the next character is a letter:
`tagfind_tolerant` reads the name (lowercased), then the attribute loop
runs; a tag that ends in neither `>` nor `/>` yields no event here
(`HTMLParser` would turn the fragmentary tag into data at end of input). -/
def scanStartTag (c : Char) (rest : List Char) : Option Token × List Char :=
  let nameL : String := strToLower ⟨c :: rest.takeWhile tagNameChar⟩
  match parseAttrs (rest.dropWhile tagNameChar) [] with
  | (attrs, .gt, r') => (some (.startTag nameL attrs false), r')
  | (attrs, .slashGt, r') => (some (.startTag nameL attrs true), r')
  | (_, .bad, r') => (none, r')

/-- The tokenizer loop on explicit fuel (one unit per event or skipped
construct; every step consumes at least one character). -/
def tokenizeF : Nat → List Char → List Token
  | 0, _ => []
  | _, [] => []
  | fuel + 1, c :: rest =>
    if c = '<' then
      match rest with
      | '/' :: rest' =>
        (match scanEndTag rest' with
         | (some t, r) => t :: tokenizeF fuel r
         | (none, r) => tokenizeF fuel r)
      | c' :: rest' =>
        if c'.isAlpha then
          match scanStartTag c' rest' with
          | (some t, r) => t :: tokenizeF fuel r
          | (none, r) => tokenizeF fuel r
        else if c' = '!' || c' = '?' then tokenizeF fuel (skipPastGt (c' :: rest'))
        else .dataTok "<" :: tokenizeF fuel (c' :: rest')
      | [] => [.dataTok "<"]
    else
      .dataTok ⟨unescapeChars (c :: rest.takeWhile fun x => !(x = '<'))⟩ ::
        tokenizeF fuel (rest.dropWhile fun x => !(x = '<'))

/-- The tokenizer: `HTMLParser.feed` followed by `close`, reporting start
tags, end tags and unescaped character data in order. -/
def tokenize (cs : List Char) : List Token := tokenizeF cs.length cs

/-! ### The tag-matching parser (`Parser`)

The Python parser keeps a stack of open elements; a child appended to the
top element mutates the object already linked from its parent.  Here a
stack entry is an explicit frame and a completed element is attached to its
parent when it is closed; the implicit root fragment is the bottom frame.
`rootDone` carries `self.root` after the root frame itself is popped (only
reachable through an end tag with an empty name, which the tokenizer never
produces). -/

structure Frame where
  name : String
  attributes : List (String × AttrValue)
  children : List Node

structure ParserState where
  stack : List Frame
  rootDone : Option Node

/-- `Parser.reset`: the stack holds one implicit root fragment
(`Element("")`, whose attributes are the defaults). -/
def parserInit : ParserState := ⟨[⟨"", default_attributes, []⟩], none⟩

def frameAddChild (f : Frame) (n : Node) : Frame :=
  ⟨f.name, f.attributes, f.children ++ [n]⟩

def completeFrame (f : Frame) : Node := .elem f.name f.attributes f.children

/-- `Parser.add`: `self.stack[-1](value)`; an empty stack is an IndexError. -/
def parserAdd (st : ParserState) (n : Node) : Except PyErr ParserState :=
  match st.stack with
  | [] => .error .indexError
  | top :: rest => .ok ⟨frameAddChild top n :: rest, st.rootDone⟩

/-- `Parser.open_tag`: look up the tag (a missing registry entry raises),
canonicalize the attribute names into a dict, apply `parse_funcs` (for
every registered type the inherited `{"_class": parse__class}`), construct
the element, add it to the stack top, and push it unless the type is void
or the tag was self-closing. -/
def open_tag (st : ParserState) (tag : String) (attrs : List (String × String))
    (selfClosing : Bool) : Except PyErr ParserState :=
  match subclasses tag with
  | none => .error (.unknownType tag)
  | some ty =>
    let pyAttrs : List (String × String) :=
      attrs.foldl (fun d kv => dict_set d (html_name_to_python kv.1) kv.2) []
    let parsed : List (String × AttrValue) := pyAttrs.map fun kv =>
      if kv.1 = "_class" then (kv.1, parse__class kv.2) else (kv.1, AttrValue.str kv.2)
    let el : Frame := ⟨tag, dict_update default_attributes parsed, []⟩
    match st.stack with
    | [] => .error .indexError
    | top :: rest =>
      if ty.void || selfClosing then
        .ok ⟨frameAddChild top (completeFrame el) :: rest, st.rootDone⟩
      else
        .ok ⟨el :: top :: rest, st.rootDone⟩

def pyRepr (s : String) : String := "'" ++ s ++ "'"

/-- `Parser.handle_endtag` (with `close_tag`): an exact match with the
stack top pops it, otherwise a `ParseError` whose message depends on
whether the top is the implicit root. -/
def handle_endtag (st : ParserState) (tag : String) : Except PyErr ParserState :=
  match st.stack with
  | [] => .error .indexError
  | top :: rest =>
    if tag = top.name then
      let done := completeFrame top
      match rest with
      | parent :: rest' => .ok ⟨frameAddChild parent done :: rest', st.rootDone⟩
      | [] => .ok ⟨[], some done⟩
    else if top.name = "" then
      .error (.parseError ("End tag " ++ pyRepr tag ++ " has no matching start tag"))
    else
      .error (.parseError
        ("End tag " ++ pyRepr tag ++ " does not match start tag " ++ pyRepr top.name))

def feedToken (st : ParserState) : Token → Except PyErr ParserState
  | .startTag tag attrs sc => open_tag st tag attrs sc
  | .endTag tag => handle_endtag st tag
  | .dataTok s => parserAdd st (.str s)

def feedTokens : ParserState → List Token → Except PyErr ParserState
  | st, [] => .ok st
  | st, t :: ts =>
    match feedToken st t with
    | .error e => .error e
    | .ok st' => feedTokens st' ts

/-- `Parser.close`: with more than the implicit root still open, a
`ParseError` reporting the count; otherwise `self.root`. -/
def parserClose (st : ParserState) : Except PyErr Node :=
  if st.stack.length > 1 then
    .error (.parseError (toString (st.stack.length - 1) ++ " unclosed tag(s)"))
  else
    match st.stack with
    | [f] => .ok (completeFrame f)
    | _ => .ok (st.rootDone.getD (.str ""))

/-- `Element.parse`. -/
def element_parse (s : String) : Except PyErr Node :=
  match feedTokens parserInit (tokenize s.data) with
  | .error e => .error e
  | .ok st => parserClose st

/-- The bottom frame of a non-empty stack is the implicit root fragment. -/
def lastFrameOK : List Frame → Bool
  | [] => false
  | [f] => f.name == "" && decide (f.attributes = default_attributes)
  | _ :: l => lastFrameOK l

/-- Parser-state invariant: the implicit root fragment (empty name, default
attributes) sits at the bottom of the stack, or — if it was popped — in
`rootDone`. -/
def stackOK (st : ParserState) : Bool :=
  match st.stack with
  | [] =>
    match st.rootDone with
    | some (.elem n a _) => n == "" && decide (a = default_attributes)
    | _ => false
  | f :: l => lastFrameOK (f :: l)

/-- The children accumulated on the root fragment: the parsed top-level
nodes. -/
def rootChildren (st : ParserState) : List Node :=
  match st.stack.getLast? with
  | some f => f.children
  | none =>
    match st.rootDone with
    | some (.elem _ _ c) => c
    | _ => []

/-! ### Heap model (object identity and in-place mutation)

The copy and render claims speak about Python object identity: `copy` must
allocate a new object that shares the original's child references, and
`render` must build new nodes without mutating any object of the argument's
tree.  For these two claims elements are modeled as heap objects: the heap
is a list of objects addressed by index, allocation appends, writes use
`List.set`, and children refer to elements by address. -/

inductive HChild where
  | ref (a : Nat)
  | str (s : String)
deriving DecidableEq, Repr

structure HObj where
  name : String
  attributes : List (String × AttrValue)
  children : List HChild
deriving DecidableEq, Repr

abbrev Heap := List HObj

/-- `Element.copy` on the heap: `Element(self.name, *self.children,
**self.attributes)` allocates a new object at the next address, with the
lowercased name, the default attributes updated with the original's, and
the very same child reference list; a missing registry entry for the
lowercased name is the `KeyError` of `Element.__new__`. -/
def copyH (h : Heap) (a : Nat) : Option (Heap × Nat) :=
  match h[a]? with
  | none => none
  | some obj =>
    match subclasses (strToLower obj.name) with
    | none => none
    | some _ =>
      some (h ++ [⟨strToLower obj.name,
        dict_update default_attributes obj.attributes, obj.children⟩], h.length)

/-- `shallow_normalize`'s fragment flattening on heap children: a child
reference whose object has an empty name is replaced by that object's
children. -/
def flattenFragH (h : Heap) (cs : List HChild) : List HChild :=
  cs.flatMap fun c =>
    match c with
    | .ref b =>
      match h[b]? with
      | some obj => if obj.name = "" then obj.children else [.ref b]
      | none => [.ref b]
    | c => [c]

/-- The text-merging loop of `shallow_normalize` on heap children. -/
def mergeStrsGoH : List HChild → List HChild → List HChild
  | acc, [] => acc.reverse
  | acc, .str s :: rest =>
    if s = "" then mergeStrsGoH acc rest
    else
      match acc with
      | .str t :: acc' => mergeStrsGoH (.str (t ++ s) :: acc') rest
      | _ => mergeStrsGoH (.str s :: acc) rest
  | acc, c :: rest => mergeStrsGoH (c :: acc) rest

def shallowNormChildrenH (h : Heap) (cs : List HChild) : List HChild :=
  mergeStrsGoH [] (flattenFragH h cs)

/-- The two kinds of work in the render recursion: render one element, or
run the `rendered[i] = child.render()` loop over remaining children with
the already-processed prefix accumulated in reverse. -/
inductive RTask where
  | one (a : Nat)
  | kids (pending : List HChild) (acc : List HChild)

inductive RRes where
  | addr (a : Nat)
  | childs (cs : List HChild)

/-- `Element.render` on the heap, for the registered types (whose inherited
`transform` returns `None`): look up the type, take `rendered = self.copy()`,
render every element child of the copy in place (string children pass
through), shallow-normalize the copy, and return it.  The fuel bounds the
recursion; `none` covers exhausted fuel and the `KeyError` paths. -/
def renderT : Nat → Heap → RTask → Option (Heap × RRes)
  | 0, _, _ => none
  | fuel + 1, h, .one a =>
    match h[a]? with
    | none => none
    | some obj =>
      match subclasses obj.name with
      | none => none
      | some _ =>
        match copyH h a with
        | none => none
        | some (h1, ca) =>
          match renderT fuel h1 (.kids obj.children []) with
          | some (h2, .childs done) =>
            (match h2[ca]? with
             | none => none
             | some cobj =>
               let h3 := h2.set ca ⟨cobj.name, cobj.attributes, done⟩
               some (h3.set ca
                 ⟨cobj.name, cobj.attributes, shallowNormChildrenH h3 done⟩,
                 .addr ca))
          | _ => none
  | _ + 1, h, .kids [] acc => some (h, .childs acc.reverse)
  | fuel + 1, h, .kids (.str s :: rest) acc =>
    renderT fuel h (.kids rest (.str s :: acc))
  | fuel + 1, h, .kids (.ref b :: rest) acc =>
    match renderT fuel h (.one b) with
    | some (h', .addr b') => renderT fuel h' (.kids rest (.ref b' :: acc))
    | _ => none

def renderH (fuel : Nat) (h : Heap) (a : Nat) : Option (Heap × Nat) :=
  match renderT fuel h (.one a) with
  | some (h', .addr a') => some (h', a')
  | _ => none

/-! ### Well-formed trees for the round-trip statement

The round-trip theorem quantifies over trees whose serialized form the
tolerant tokenizer reads back verbatim: fully normalized children, text
restricted to characters that escape to themselves, attribute keys that
survive the HTML/Python name conversion, the class set kept in its
canonical sorted enumeration, and no `script`/`style` (whose raw-text
serialization is not inverted by the generic tokenizer). -/

def safeTextChar (c : Char) : Bool :=
  !(c = '&' || c = '<' || c = '>' || c = '"')

/-- A nonempty text child whose characters need no escaping. -/
def goodText (s : String) : Bool :=
  !s.isEmpty && s.data.all safeTextChar

/-- A class token: nonempty, no whitespace, nothing needing escapes. -/
def goodToken (s : String) : Bool :=
  !s.isEmpty && s.data.all fun c => safeTextChar c && !pySpace c

/-- The class set carried in canonical (sorted, duplicate-free)
enumeration — the enumeration parsing produces. -/
def clsCanonical (cls : List String) : Bool :=
  cls.all goodToken && decide (sortStrings (dedupStrings cls) = cls)

/-- A non-`_class` attribute key that converts to HTML and back unchanged
and whose HTML form the tolerant attribute regex reads back exactly.  The
HTML form is kept to ASCII characters: there the embedded ASCII
lowercasing (`strToLower`) coincides with the `str.lower()` the tokenizer
applies to attribute names, so `strToLower h = h` says exactly that the
real tokenizer returns the name unchanged. -/
def goodKey (k : String) : Bool :=
  let h := python_name_to_html k
  !h.isEmpty &&
    h.data.all (fun c => attrNameChar c && decide (c.toNat ≤ 127)) &&
    decide (strToLower h = h) && decide (html_name_to_python h = k)

def goodAttr : String × AttrValue → Bool
  | (k, .str v) => goodKey k && v.data.all safeTextChar
  | (_, .strSet _) => false

/-- Attribute dicts in the shape construction and parsing produce:
`_class` first with a canonical set, every other attribute a string value
under a round-tripping key, all keys distinct. -/
def attrsOK : List (String × AttrValue) → Bool
  | (k, .strSet cls) :: rest =>
    decide (k = "_class") && clsCanonical cls && rest.all goodAttr &&
      decide (("_class" :: rest.map Prod.fst).Nodup)
  | _ => false

/-- Tag names as the registry provides them: a leading letter, every
character legal for both `tagfind_tolerant` and `endtagfind`, lowercase. -/
def goodTagName (n : String) : Bool :=
  match n.data with
  | [] => false
  | c :: rest =>
    c.isAlpha && rest.all tagNameChar && (c :: rest).all endTagNameChar &&
      decide (strToLower n = n)

def headNotStr : List Node → Bool
  | .str _ :: _ => false
  | _ => true

mutual

/-- Trees the round-trip theorem covers: registered non-fragment,
non-`script`/`style` elements with `attrsOK` attributes, void elements
childless, text children `goodText`, no two adjacent text children. -/
def wfNode : Node → Bool
  | .str s => goodText s
  | .elem n a c =>
    match subclasses n with
    | none => false
    | some ty =>
      !(n = "") && !(n = "script") && !(n = "style") && attrsOK a &&
        (!ty.void || c.isEmpty) && wfChildren c

def wfChildren : List Node → Bool
  | [] => true
  | .str s :: rest => goodText s && headNotStr rest && wfChildren rest
  | c :: rest => wfNode c && wfChildren rest

end

mutual

def nodeSize : Node → Nat
  | .str _ => 1
  | .elem _ _ c => childSize c + 1

def childSize : List Node → Nat
  | [] => 0
  | c :: rest => nodeSize c + childSize rest

end

mutual

/-- The token stream the serialized form of a well-formed node reads back
as: a start tag carrying the serialized attributes, the children's tokens,
and — except for the tags `_serialize_html` leaves unclosed — an end tag. -/
def nodeTokens : Node → List Token
  | .str s => [.dataTok s]
  | .elem n a c =>
    .startTag n (serializeAttrs a) false ::
      childTokens c ++
        (if HTML_EMPTY.contains (strToLower n) then [] else [.endTag n])

def childTokens : List Node → List Token
  | [] => []
  | c :: rest => nodeTokens c ++ childTokens rest

end

/-! ## Theorems -/

/-! ### The accumulator loop computes the declarative cleanup -/

theorem string_append_assoc (a b c : String) : (a ++ b) ++ c = a ++ (b ++ c) := by
  apply String.ext
  simp [String.data_append, List.append_assoc]

theorem mergeOnto_push_str (t s : String) (acc' Y : List Node) :
    mergeOnto (.str (t ++ s) :: acc') Y = mergeOnto (.str t :: acc') (strCons s Y) := by
  cases Y with
  | nil => simp [mergeOnto, strCons, List.reverse_cons]
  | cons c r =>
    cases c with
    | str u => simp [mergeOnto, strCons, string_append_assoc]
    | elem n a cs => simp [mergeOnto, strCons, List.reverse_cons, List.append_assoc]

theorem mergeOnto_new_str (s : String) (acc Y : List Node)
    (h : ∀ t r, acc ≠ Node.str t :: r) :
    mergeOnto (.str s :: acc) Y = mergeOnto acc (strCons s Y) := by
  match acc, h with
  | [], _ =>
    cases Y with
    | nil => simp [mergeOnto, strCons]
    | cons c r => cases c <;> simp [mergeOnto, strCons]
  | Node.str t :: r, h => exact absurd rfl (h t r)
  | Node.elem n a cs :: r, _ =>
    cases Y with
    | nil => simp [mergeOnto, strCons]
    | cons c r' => cases c <;> simp [mergeOnto, strCons, List.append_assoc]

theorem mergeOnto_push_other (n : String) (a : List (String × AttrValue))
    (cs : List Node) (acc Y : List Node) :
    mergeOnto (.elem n a cs :: acc) Y = mergeOnto acc (.elem n a cs :: Y) := by
  cases Y with
  | nil => simp [mergeOnto]
  | cons c r => cases c <;> simp [mergeOnto, List.append_assoc]

theorem mergeStrsGo_eq (cs acc : List Node) :
    mergeStrsGo acc cs = mergeOnto acc (concatAdjacentStrs (dropEmptyStrs cs)) := by
  induction cs generalizing acc with
  | nil => simp [mergeStrsGo, dropEmptyStrs, concatAdjacentStrs, mergeOnto]
  | cons c rest ih =>
    cases c with
    | str s =>
      by_cases hs : s = ""
      · subst hs
        rw [show mergeStrsGo acc (.str "" :: rest) = mergeStrsGo acc rest by
              simp [mergeStrsGo]]
        rw [show dropEmptyStrs (.str "" :: rest) = dropEmptyStrs rest by
              simp [dropEmptyStrs]]
        exact ih acc
      · rw [show dropEmptyStrs (.str s :: rest) = .str s :: dropEmptyStrs rest by
              simp [dropEmptyStrs, hs]]
        rw [show concatAdjacentStrs (.str s :: dropEmptyStrs rest)
              = strCons s (concatAdjacentStrs (dropEmptyStrs rest)) from rfl]
        match acc with
        | Node.str t :: acc' =>
          rw [show mergeStrsGo (.str t :: acc') (.str s :: rest)
                = mergeStrsGo (.str (t ++ s) :: acc') rest by simp [mergeStrsGo, hs]]
          rw [ih, mergeOnto_push_str]
        | [] =>
          rw [show mergeStrsGo [] (.str s :: rest)
                = mergeStrsGo [.str s] rest by simp [mergeStrsGo, hs]]
          rw [ih, mergeOnto_new_str s [] _ (by intro t r hc; cases hc)]
        | Node.elem n' a' c' :: acc' =>
          rw [show mergeStrsGo (.elem n' a' c' :: acc') (.str s :: rest)
                = mergeStrsGo (.str s :: .elem n' a' c' :: acc') rest by
                simp [mergeStrsGo, hs]]
          rw [ih, mergeOnto_new_str s _ _ (by intro t r hc; cases hc)]
    | elem n a ccs =>
      rw [show mergeStrsGo acc (.elem n a ccs :: rest)
            = mergeStrsGo (.elem n a ccs :: acc) rest by simp [mergeStrsGo]]
      rw [show dropEmptyStrs (.elem n a ccs :: rest)
            = .elem n a ccs :: dropEmptyStrs rest by simp [dropEmptyStrs]]
      rw [show concatAdjacentStrs (.elem n a ccs :: dropEmptyStrs rest)
            = .elem n a ccs :: concatAdjacentStrs (dropEmptyStrs rest) from rfl]
      rw [ih, mergeOnto_push_other]

/-- `mergeOnto` with an empty accumulator is the identity. -/
theorem mergeOnto_nil (Y : List Node) : mergeOnto [] Y = Y := by
  cases Y with
  | nil => rfl
  | cons c r => cases c <;> simp [mergeOnto]

theorem shallowNormChildren_eq (cs : List Node) :
    shallowNormChildren cs = concatAdjacentStrs (dropEmptyStrs (flattenFrag cs)) := by
  rw [shallowNormChildren, mergeStrsGo_eq, mergeOnto_nil]

/-! ### Claim C6 -/

/-- Claim C6: `shallow_normalize` is exactly the claimed one-level cleanup:
every direct fragment child is replaced by its own children spliced in
place, then empty string children are dropped and adjacent string children
are concatenated; non-string non-fragment children pass through unchanged
and are not recursed into (`flattenFrag`/`dropEmptyStrs`/`concatAdjacentStrs`
state those three steps directly, and `flattenFrag` keeps such children as
they are).  On the spec's example, children
`["a", fragment("b", "c", div(), "e")]` become `["abc", div(), "e"]`. -/
theorem shallow_normalize_single_level :
    (∀ (n : String) (a : List (String × AttrValue)) (cs : List Node),
      shallow_normalize (.elem n a cs) =
        .elem n a (concatAdjacentStrs (dropEmptyStrs (flattenFrag cs)))) ∧
    shallow_normalize (.elem "div" default_attributes
      [.str "a", .elem "" default_attributes
        [.str "b", .str "c", .elem "div" default_attributes [], .str "e"]]) =
      .elem "div" default_attributes
        [.str "abc", .elem "div" default_attributes [], .str "e"] := by
  constructor
  · intro n a cs
    show Node.elem n a (shallowNormChildren cs) = _
    rw [shallowNormChildren_eq]
  · rfl

/-! ### Claim C2 -/

/-- Claim C2 (the code at the failing input): `Element.normalize` applies
`shallow_normalize` only to the direct children and to the node itself, not
to deeper descendants.  On `div(div(div(fragment("x"))))` it changes
nothing, and the innermost element still has a direct fragment-typed
child afterwards — contradicting the claim (and the method's own docstring
"Recursively normalize this element's subtree"). -/
theorem normalize_stops_at_depth_one :
    normalize (.elem "div" default_attributes [.elem "div" default_attributes
      [.elem "div" default_attributes [.elem "" default_attributes [.str "x"]]]]) =
      .elem "div" default_attributes [.elem "div" default_attributes
      [.elem "div" default_attributes [.elem "" default_attributes [.str "x"]]]] ∧
    subtreeHasFragChild
      (normalize (.elem "div" default_attributes [.elem "div" default_attributes
        [.elem "div" default_attributes [.elem "" default_attributes [.str "x"]]]])) =
      true :=
  ⟨rfl, rfl⟩

/-! ### Claim C4 -/

/-- Claim C4: `Element.parse("<div></p>")` raises `ParseError` because the
end tag does not match the element open on the stack top, and
`Element.parse("<p></p></div>")` raises `ParseError` because the end tag
arrives when only the implicit root fragment (empty name) remains open. -/
theorem mismatched_end_tags_raise :
    element_parse "<div></p>" =
      .error (.parseError "End tag 'p' does not match start tag 'div'") ∧
    element_parse "<p></p></div>" =
      .error (.parseError "End tag 'div' has no matching start tag") :=
  ⟨rfl, rfl⟩

/-! ### Claim C3 -/

/-- Claim C3: a tag name with no registered descriptor fails both at
explicit construction (`Element(name, ...)`, which looks up the lowercased
name) and at parsing (the parser's `open_tag` looks the tag up before
touching the tree); both surface the registry miss — Python's `KeyError`
on `Element.subclasses`, the spec's `UnknownType` — and neither returns a
node. -/
theorem unknown_type_rejected (name tag : String) (children : List Node)
    (attrs : List (String × AttrValue)) (st : ParserState)
    (rawAttrs : List (String × String)) (sc : Bool)
    (h1 : subclasses (strToLower name) = none) (h2 : subclasses tag = none) :
    elementNew name children attrs = .error (.unknownType (strToLower name)) ∧
    feedToken st (.startTag tag rawAttrs sc) = .error (.unknownType tag) ∧
    element_parse "<blink>x</blink>" = .error (.unknownType "blink") := by
  refine ⟨?_, ?_, rfl⟩
  · rw [elementNew]
    simp [h1]
  · show open_tag st tag rawAttrs sc = _
    rw [open_tag]
    simp [h2]

theorem unknown_type_rejected_witness :
    subclasses (strToLower "Blink") = none ∧ subclasses "blink" = none ∧
    (elementNew "Blink" [] [] = .error (.unknownType "blink") ∧
      feedToken parserInit (.startTag "blink" [] false) = .error (.unknownType "blink") ∧
      element_parse "<blink>x</blink>" = .error (.unknownType "blink")) :=
  ⟨rfl, rfl, unknown_type_rejected "Blink" "blink" [] [] parserInit [] false rfl rfl⟩

/-! ### Claim C5: the parser invariant and close -/

theorem lastFrameOK_cons (f : Frame) (l : List Frame) (h : l ≠ []) :
    lastFrameOK (f :: l) = lastFrameOK l := by
  cases l with
  | nil => exact absurd rfl h
  | cons g gs => rfl

theorem frameAddChild_name (f : Frame) (n : Node) : (frameAddChild f n).name = f.name := rfl

theorem frameAddChild_attrs (f : Frame) (n : Node) :
    (frameAddChild f n).attributes = f.attributes := rfl

theorem stackOK_cons (f : Frame) (l : List Frame) (rd : Option Node) :
    stackOK ⟨f :: l, rd⟩ = lastFrameOK (f :: l) := rfl

theorem stackOK_addChild_top (rd : Option Node) (top : Frame) (rest : List Frame)
    (n : Node) (h : stackOK ⟨top :: rest, rd⟩ = true) :
    stackOK ⟨frameAddChild top n :: rest, rd⟩ = true := by
  rw [stackOK_cons] at h ⊢
  cases rest with
  | nil =>
    simp only [lastFrameOK, frameAddChild] at h ⊢
    exact h
  | cons g gs =>
    rw [lastFrameOK_cons _ _ (by simp)] at h ⊢
    exact h

theorem stackOK_push (rd : Option Node) (el top : Frame) (rest : List Frame)
    (h : stackOK ⟨top :: rest, rd⟩ = true) :
    stackOK ⟨el :: top :: rest, rd⟩ = true := by
  rw [stackOK_cons] at h ⊢
  rw [lastFrameOK_cons _ _ (by simp)]
  exact h

theorem parserAdd_stackOK (st st' : ParserState) (n : Node)
    (h : stackOK st = true) (hf : parserAdd st n = .ok st') : stackOK st' = true := by
  obtain ⟨stk, rd⟩ := st
  rw [parserAdd] at hf
  split at hf
  · cases hf
  · rename_i top rest hs
    simp only [] at hs
    cases hf
    subst hs
    exact stackOK_addChild_top rd top rest n h

theorem open_tag_stackOK (st st' : ParserState) (tag : String)
    (attrs : List (String × String)) (sc : Bool)
    (h : stackOK st = true) (hf : open_tag st tag attrs sc = .ok st') :
    stackOK st' = true := by
  obtain ⟨stk, rd⟩ := st
  rw [open_tag] at hf
  split at hf
  · cases hf
  · split at hf
    · cases hf
    · rename_i top rest hs
      simp only [] at hs
      subst hs
      split at hf
      · cases hf
        exact stackOK_addChild_top rd top rest _ h
      · cases hf
        exact stackOK_push rd _ top rest h

theorem handle_endtag_stackOK (st st' : ParserState) (tag : String)
    (h : stackOK st = true) (hf : handle_endtag st tag = .ok st') : stackOK st' = true := by
  obtain ⟨stk, rd⟩ := st
  rw [handle_endtag] at hf
  split at hf
  · cases hf
  · rename_i top rest hs
    simp only [] at hs
    subst hs
    split at hf
    · split at hf
      · rename_i parent rest'
        simp only [] at hf
        cases hf
        refine stackOK_addChild_top rd parent rest' _ ?_
        rw [stackOK_cons] at h ⊢
        rw [lastFrameOK_cons _ _ (by simp)] at h
        exact h
      · simp only [] at hf
        cases hf
        obtain ⟨tn, ta, tc⟩ := top
        rw [stackOK_cons] at h
        simp only [lastFrameOK] at h
        have h1 := (Bool.and_eq_true _ _).mp h
        simp only [beq_iff_eq, decide_eq_true_eq] at h1
        obtain ⟨hn, ha⟩ := h1
        subst hn
        subst ha
        rfl
    · split at hf
      · cases hf
      · cases hf

theorem feedToken_stackOK (st st' : ParserState) (t : Token)
    (h : stackOK st = true) (hf : feedToken st t = .ok st') : stackOK st' = true := by
  cases t with
  | startTag tag attrs sc => exact open_tag_stackOK st st' tag attrs sc h hf
  | endTag tag => exact handle_endtag_stackOK st st' tag h hf
  | dataTok s => exact parserAdd_stackOK st st' _ h hf

theorem feedTokens_stackOK (ts : List Token) (st st' : ParserState)
    (h : stackOK st = true) (hf : feedTokens st ts = .ok st') : stackOK st' = true := by
  induction ts generalizing st with
  | nil =>
    rw [feedTokens] at hf
    cases hf
    exact h
  | cons t ts ih =>
    rw [feedTokens] at hf
    split at hf
    · cases hf
    · rename_i st1 hstep
      exact ih st1 (feedToken_stackOK st st1 t h hstep) hf

/-- Claim C5: after feeding any token stream, if more elements than the
single implicit root remain on the stack then `Parser.close` fails with a
`ParseError` whose message reports the number of unclosed tags; otherwise
it returns the root fragment node (empty-string type, default attributes)
whose children are the accumulated top-level nodes. -/
theorem close_counts_unclosed (ts : List Token) (st : ParserState)
    (hfeed : feedTokens parserInit ts = .ok st) :
    (st.stack.length > 1 →
      parserClose st =
        .error (.parseError (toString (st.stack.length - 1) ++ " unclosed tag(s)"))) ∧
    (st.stack.length ≤ 1 →
      parserClose st = .ok (.elem "" default_attributes (rootChildren st))) := by
  have hok : stackOK st = true := feedTokens_stackOK ts parserInit st (by rfl) hfeed
  constructor
  · intro hlen
    rw [parserClose]
    rw [if_pos hlen]
  · intro hlen
    obtain ⟨stk, rd⟩ := st
    simp only [] at hlen hok ⊢
    cases stk with
    | nil =>
      cases rd with
      | none => exact Bool.noConfusion hok
      | some root =>
        cases root with
        | str s => exact Bool.noConfusion hok
        | elem n a c =>
          rw [show stackOK ⟨[], some (.elem n a c)⟩
                = (n == "" && decide (a = default_attributes)) from rfl] at hok
          simp only [beq_iff_eq, decide_eq_true_eq, Bool.and_eq_true] at hok
          obtain ⟨hn, ha⟩ := hok
          subst hn
          subst ha
          rfl
    | cons f l =>
      cases l with
      | nil =>
        obtain ⟨fn, fa, fc⟩ := f
        rw [show stackOK ⟨[⟨fn, fa, fc⟩], rd⟩
              = (fn == "" && decide (fa = default_attributes)) from rfl] at hok
        simp only [beq_iff_eq, decide_eq_true_eq, Bool.and_eq_true] at hok
        obtain ⟨hn, ha⟩ := hok
        subst hn
        subst ha
        rfl
      | cons g gs => simp only [List.length_cons] at hlen; omega

theorem close_counts_unclosed_witness :
    ∃ st, feedTokens parserInit
        [.startTag "div" [] false, .startTag "p" [] false] = .ok st ∧
      parserClose st = .error (.parseError "2 unclosed tag(s)") := by
  refine ⟨_, rfl, ?_⟩
  exact (close_counts_unclosed
    [.startTag "div" [] false, .startTag "p" [] false] _ rfl).1 (by decide)

/-! ### Order lemmas for the class-token sort -/

theorem strLeChars_total (a b : List Char) :
    strLeChars a b = true ∨ strLeChars b a = true := by
  induction a generalizing b with
  | nil => left; rfl
  | cons x xs ih =>
    cases b with
    | nil => right; rfl
    | cons y ys =>
      rcases lt_trichotomy x y with h | h | h
      · left
        simp [strLeChars, h]
      · subst h
        rcases ih ys with h2 | h2
        · left
          simp [strLeChars, lt_irrefl, h2]
        · right
          simp [strLeChars, lt_irrefl, h2]
      · right
        simp [strLeChars, h]

theorem strLeChars_antisymm (a b : List Char)
    (h1 : strLeChars a b = true) (h2 : strLeChars b a = true) : a = b := by
  induction a generalizing b with
  | nil =>
    cases b with
    | nil => rfl
    | cons y ys => exact Bool.noConfusion h2
  | cons x xs ih =>
    cases b with
    | nil => exact Bool.noConfusion h1
    | cons y ys =>
      rcases lt_trichotomy x y with h | h | h
      · rw [show strLeChars (y :: ys) (x :: xs)
              = (if y < x then true else if x < y then false else strLeChars ys xs)
            from rfl] at h2
        rw [if_neg (lt_asymm h), if_pos h] at h2
        exact Bool.noConfusion h2
      · subst h
        rw [show strLeChars (x :: xs) (x :: ys)
              = (if x < x then true else if x < x then false else strLeChars xs ys)
            from rfl] at h1
        rw [show strLeChars (x :: ys) (x :: xs)
              = (if x < x then true else if x < x then false else strLeChars ys xs)
            from rfl] at h2
        rw [if_neg (lt_irrefl x), if_neg (lt_irrefl x)] at h1 h2
        rw [ih ys h1 h2]
      · rw [show strLeChars (x :: xs) (y :: ys)
              = (if x < y then true else if y < x then false else strLeChars xs ys)
            from rfl] at h1
        rw [if_neg (lt_asymm h), if_pos h] at h1
        exact Bool.noConfusion h1

theorem strLeChars_trans (a b c : List Char)
    (h1 : strLeChars a b = true) (h2 : strLeChars b c = true) :
    strLeChars a c = true := by
  induction a generalizing b c with
  | nil => rfl
  | cons x xs ih =>
    cases b with
    | nil => exact Bool.noConfusion h1
    | cons y ys =>
      cases c with
      | nil => exact Bool.noConfusion h2
      | cons z zs =>
        rw [show strLeChars (x :: xs) (y :: ys)
              = (if x < y then true else if y < x then false else strLeChars xs ys)
            from rfl] at h1
        rw [show strLeChars (y :: ys) (z :: zs)
              = (if y < z then true else if z < y then false else strLeChars ys zs)
            from rfl] at h2
        rw [show strLeChars (x :: xs) (z :: zs)
              = (if x < z then true else if z < x then false else strLeChars xs zs)
            from rfl]
        rcases lt_trichotomy x y with hxy | hxy | hxy
        · rcases lt_trichotomy y z with hyz | hyz | hyz
          · rw [if_pos (lt_trans hxy hyz)]
          · subst hyz; rw [if_pos hxy]
          · rw [if_neg (lt_asymm hyz), if_pos hyz] at h2
            exact Bool.noConfusion h2
        · subst hxy
          rcases lt_trichotomy x z with hyz | hyz | hyz
          · rw [if_pos hyz]
          · subst hyz
            rw [if_neg (lt_irrefl x)] at h1 h2 ⊢
            rw [if_neg (lt_irrefl x)] at h1 h2 ⊢
            exact ih ys zs h1 h2
          · rw [if_neg (lt_asymm hyz), if_pos hyz] at h2
            exact Bool.noConfusion h2
        · rw [if_neg (lt_asymm hxy), if_pos hxy] at h1
          exact Bool.noConfusion h1

theorem strLe_total (a b : String) : strLe a b = true ∨ strLe b a = true :=
  strLeChars_total a.data b.data

theorem strLe_antisymm (a b : String) (h1 : strLe a b = true)
    (h2 : strLe b a = true) : a = b :=
  String.ext (strLeChars_antisymm a.data b.data h1 h2)

theorem strLe_trans (a b c : String) (h1 : strLe a b = true)
    (h2 : strLe b c = true) : strLe a c = true :=
  strLeChars_trans a.data b.data c.data h1 h2

theorem mem_insertSorted (x s : String) (ts : List String) :
    x ∈ insertSorted s ts ↔ x = s ∨ x ∈ ts := by
  induction ts with
  | nil => simp [insertSorted]
  | cons t rest ih =>
    rw [insertSorted]
    split
    · simp
    · simp only [List.mem_cons, ih]
      tauto

theorem pairwise_insertSorted (s : String) (ts : List String)
    (h : ts.Pairwise (fun a b => strLe a b = true)) :
    (insertSorted s ts).Pairwise (fun a b => strLe a b = true) := by
  induction ts with
  | nil => simp [insertSorted]
  | cons t rest ih =>
    rw [insertSorted]
    rw [List.pairwise_cons] at h
    split
    · rename_i hle
      rw [List.pairwise_cons]
      refine ⟨?_, List.Pairwise.cons h.1 h.2⟩
      intro u hu
      rcases List.mem_cons.mp hu with hu | hu
      · rw [hu]; exact hle
      · exact strLe_trans s t u hle (h.1 u hu)
    · rename_i hnle
      have hts : strLe t s = true := by
        rcases strLe_total s t with h2 | h2
        · exact absurd h2 hnle
        · exact h2
      rw [List.pairwise_cons]
      refine ⟨?_, ih h.2⟩
      intro u hu
      rcases (mem_insertSorted u s rest).mp hu with hu | hu
      · rw [hu]; exact hts
      · exact h.1 u hu

theorem mem_sortStrings (x : String) (l : List String) :
    x ∈ sortStrings l ↔ x ∈ l := by
  induction l with
  | nil => simp [sortStrings]
  | cons s rest ih =>
    rw [sortStrings, List.foldr_cons]
    rw [show List.foldr insertSorted [] rest = sortStrings rest from rfl]
    rw [mem_insertSorted, ih]
    simp

theorem pairwise_sortStrings (l : List String) :
    (sortStrings l).Pairwise (fun a b => strLe a b = true) := by
  induction l with
  | nil => simp [sortStrings]
  | cons s rest ih =>
    rw [sortStrings, List.foldr_cons]
    exact pairwise_insertSorted s _ ih

theorem nodup_insertSorted (s : String) (ts : List String)
    (hmem : s ∉ ts) (h : ts.Nodup) : (insertSorted s ts).Nodup := by
  induction ts with
  | nil => simp [insertSorted]
  | cons t rest ih =>
    rw [insertSorted]
    rw [List.nodup_cons] at h
    split
    · exact List.Nodup.cons (by
        intro hc
        exact hmem hc) (List.Nodup.cons h.1 h.2)
    · rw [List.nodup_cons]
      refine ⟨?_, ih (by intro hc; exact hmem (List.mem_cons_of_mem t hc)) h.2⟩
      intro hc
      rcases (mem_insertSorted t s rest).mp hc with hc | hc
      · exact hmem (by rw [hc]; exact List.mem_cons_self s rest)
      · exact h.1 hc

theorem nodup_sortStrings (l : List String) (h : l.Nodup) :
    (sortStrings l).Nodup := by
  induction l with
  | nil => simp [sortStrings]
  | cons s rest ih =>
    rw [List.nodup_cons] at h
    rw [sortStrings, List.foldr_cons]
    refine nodup_insertSorted s _ ?_ (ih h.2)
    intro hc
    exact h.1 ((mem_sortStrings s rest).mp hc)

theorem mem_dedupStrings (x : String) (l : List String) :
    x ∈ dedupStrings l ↔ x ∈ l := by
  induction l with
  | nil => simp [dedupStrings]
  | cons s rest ih =>
    rw [dedupStrings]
    split
    · rename_i hc
      rw [ih]
      simp only [List.mem_cons]
      constructor
      · exact Or.inr
      · rintro (h | h)
        · rw [h]
          exact List.mem_of_elem_eq_true hc
        · exact h
    · simp only [List.mem_cons, ih]

theorem nodup_dedupStrings (l : List String) : (dedupStrings l).Nodup := by
  induction l with
  | nil => simp [dedupStrings]
  | cons s rest ih =>
    rw [dedupStrings]
    split
    · exact ih
    · rename_i hc
      rw [List.nodup_cons]
      refine ⟨?_, ih⟩
      intro hmem
      rw [mem_dedupStrings] at hmem
      exact hc (List.elem_eq_true_of_mem hmem)

theorem sorted_nodup_unique (l1 l2 : List String)
    (hp1 : l1.Pairwise (fun a b => strLe a b = true))
    (hp2 : l2.Pairwise (fun a b => strLe a b = true))
    (hn1 : l1.Nodup) (hn2 : l2.Nodup)
    (hmem : ∀ x, x ∈ l1 ↔ x ∈ l2) : l1 = l2 := by
  have hperm : l1.Perm l2 := (List.perm_ext_iff_of_nodup hn1 hn2).mpr hmem
  exact @List.eq_of_perm_of_sorted String (fun a b => strLe a b = true)
    ⟨fun a b h1 h2 => strLe_antisymm a b h1 h2⟩ l1 l2 hperm hp1 hp2

/-- The canonical token list of the member set of `l`. -/
theorem sortStrings_dedup_canonical (l l2 : List String)
    (hmem : ∀ x, x ∈ l2 ↔ x ∈ l) :
    sortStrings (dedupStrings l2) = sortStrings (dedupStrings l) := by
  refine sorted_nodup_unique _ _ (pairwise_sortStrings _) (pairwise_sortStrings _)
    (nodup_sortStrings _ (nodup_dedupStrings l2))
    (nodup_sortStrings _ (nodup_dedupStrings l)) ?_
  intro x
  rw [mem_sortStrings, mem_sortStrings, mem_dedupStrings, mem_dedupStrings]
  exact hmem x

/-! ### Claim C7 -/

/-- Claim C7: parsing `class="apple banana"` yields the set
`{"apple", "banana"}` under the canonical key `_class`, and serializing any
element whose class set is non-empty emits the set's distinct tokens joined
by single spaces in sorted order, under the external name `class`,
independently of the order (and multiplicity) in which tokens entered the
set. -/
theorem class_set_attribute :
    element_parse "<div class=\"apple banana\"></div>" =
      .ok (.elem "" default_attributes
        [.elem "div" [("_class", AttrValue.strSet ["apple", "banana"])] []]) ∧
    (∀ (l : List String) (attrs : List (String × AttrValue)),
      ("_class", AttrValue.strSet l) ∈ attrs → l ≠ [] →
      ∃ ts out,
        List.Pairwise (fun a b => strLe a b = true) ts ∧ ts.Nodup ∧
        (∀ x, x ∈ ts ↔ x ∈ l) ∧ out = (⟨classJoin ts⟩ : String) ∧
        str__class l = some out ∧
        ("class", out) ∈ serializeAttrs attrs ∧
        (∀ l2 : List String, (∀ x, x ∈ l2 ↔ x ∈ l) → str__class l2 = str__class l)) := by
  refine ⟨rfl, ?_⟩
  intro l attrs hmem hne
  have hne2 : l.isEmpty = false := by
    cases l with
    | nil => exact absurd rfl hne
    | cons a r => rfl
  refine ⟨sortStrings (dedupStrings l), ⟨classJoin (sortStrings (dedupStrings l))⟩,
    pairwise_sortStrings _, nodup_sortStrings _ (nodup_dedupStrings l), ?_, rfl, ?_, ?_, ?_⟩
  · intro x
    rw [mem_sortStrings, mem_dedupStrings]
  · simp [str__class, hne2]
  · apply List.mem_filterMap.mpr
    refine ⟨("_class", AttrValue.strSet l), hmem, ?_⟩
    simp [str__classValue, str__class, hne2, python_name_to_html, pyKeywords]
  · intro l2 hmem2
    have hne3 : l2.isEmpty = false := by
      obtain ⟨x, hx⟩ : ∃ x, x ∈ l := by
        cases l with
        | nil => exact absurd rfl hne
        | cons a r => exact ⟨a, List.mem_cons_self a r⟩
      have hx2 := (hmem2 x).mpr hx
      cases l2 with
      | nil => cases hx2
      | cons b r => rfl
    simp only [str__class, hne2, hne3]
    rw [sortStrings_dedup_canonical l l2 hmem2]

theorem class_set_attribute_witness :
    str__class ["banana", "apple"] = some "apple banana" ∧
    str__class ["apple", "banana", "apple"] = some "apple banana" := by
  obtain ⟨ts, out, -, -, -, -, hout, -, hinv⟩ :=
    class_set_attribute.2 ["banana", "apple"]
      [("_class", AttrValue.strSet ["banana", "apple"])]
      (List.mem_cons_self _ _) (by simp)
  refine ⟨rfl, ?_⟩
  have h2 := hinv ["apple", "banana", "apple"] (by
    intro x
    simp only [List.mem_cons, List.not_mem_nil]
    tauto)
  rw [h2]
  exact rfl

/-! ### Dict lemmas for fresh construction -/

theorem dict_update_cons_upd {α : Type} (d : List (String × α)) (kv : String × α)
    (rest : List (String × α)) :
    dict_update d (kv :: rest) = dict_update (dict_set d kv.1 kv.2) rest := rfl

theorem dict_set_cons_ne {α : Type} (k0 k : String) (v0 : α) (v : α)
    (d : List (String × α)) (h : k ≠ k0) :
    dict_set ((k0, v0) :: d) k v = (k0, v0) :: dict_set d k v := by
  rw [dict_set]
  rw [if_neg fun hc => h hc.symm]

theorem dict_update_cons_notin {α : Type} (k0 : String) (v0 : α)
    (d upd : List (String × α)) (h : ∀ kv ∈ upd, kv.1 ≠ k0) :
    dict_update ((k0, v0) :: d) upd = (k0, v0) :: dict_update d upd := by
  induction upd generalizing d with
  | nil => rfl
  | cons kv rest ih =>
    rw [dict_update_cons_upd, dict_update_cons_upd]
    rw [dict_set_cons_ne k0 kv.1 v0 kv.2 d (h kv (List.mem_cons_self kv rest))]
    exact ih (dict_set d kv.1 kv.2) fun kv2 hm => h kv2 (List.mem_cons_of_mem kv hm)

theorem dict_update_nil_nodup {α : Type} (attrs : List (String × α))
    (h : (attrs.map Prod.fst).Nodup) : dict_update [] attrs = attrs := by
  induction attrs with
  | nil => rfl
  | cons kv rest ih =>
    rw [List.map_cons, List.nodup_cons] at h
    rw [dict_update_cons_upd]
    rw [show dict_set ([] : List (String × α)) kv.1 kv.2 = [(kv.1, kv.2)] from rfl]
    rw [dict_update_cons_notin kv.1 kv.2 [] rest (by
      intro kv2 hm hc
      exact h.1 (hc ▸ List.mem_map_of_mem Prod.fst hm))]
    rw [ih h.2]

theorem dict_contains_false_forall {α : Type} (k : String) (d : List (String × α))
    (h : dict_contains k d = false) : ∀ kv ∈ d, kv.1 ≠ k := by
  induction d with
  | nil => intro kv hm; cases hm
  | cons kv0 rest ih =>
    rw [dict_contains, dict_lookup] at h
    intro kv hm
    rcases List.mem_cons.mp hm with hm | hm
    · intro hc
      rw [hm] at hc
      rw [if_pos hc] at h
      simp at h
    · refine ih ?_ kv hm
      rw [dict_contains]
      by_cases hk : kv0.1 = k
      · rw [if_pos hk] at h
        simp at h
      · rw [if_neg hk] at h
        exact h

theorem default_update_fresh (attrs : List (String × AttrValue))
    (hno : dict_contains "_class" attrs = false)
    (hnd : (attrs.map Prod.fst).Nodup) :
    dict_update default_attributes attrs =
      ("_class", AttrValue.strSet []) :: attrs := by
  rw [default_attributes]
  rw [dict_update_cons_notin _ _ [] attrs (dict_contains_false_forall _ attrs hno)]
  rw [dict_update_nil_nodup attrs hnd]

/-! ### Registered names are lowercase -/

theorem registered_names_lower :
    ALL_ELEMENTS.all (fun s => strToLower s == s) = true := rfl

theorem subclasses_lower (name : String) (ty : NodeType)
    (h : subclasses name = some ty) : strToLower name = name := by
  rw [subclasses] at h
  by_cases h1 : name = ""
  · rw [h1]; rfl
  · rw [if_neg h1] at h
    by_cases h2 : ALL_ELEMENTS.contains name = true
    · have hm : name ∈ ALL_ELEMENTS := List.mem_of_elem_eq_true h2
      have h3 := List.all_eq_true.mp registered_names_lower _ hm
      exact beq_iff_eq.mp h3
    · rw [if_neg h2] at h
      cases h

/-! ### Claim C10 -/

/-- Claim C10: a freshly constructed node of any registered type whose
caller-supplied attributes do not include `_class` comes out with the key
`_class` present (so `"_class" in node` is true), mapped to a fresh empty
set, and serializing that empty class set contributes no attribute to the
output: the serialized attribute list is exactly that of the remaining
attributes. -/
theorem fresh_node_has_empty_class (name : String) (ty : NodeType)
    (children : List Node) (attrs : List (String × AttrValue))
    (hreg : subclasses name = some ty)
    (hno : dict_contains "_class" attrs = false)
    (hnd : (attrs.map Prod.fst).Nodup) :
    elementNew name children attrs =
      .ok (.elem name (("_class", AttrValue.strSet []) :: attrs) children) ∧
    dict_contains "_class" (("_class", AttrValue.strSet []) :: attrs) = true ∧
    dict_lookup "_class" (("_class", AttrValue.strSet []) :: attrs) =
      some (AttrValue.strSet []) ∧
    serializeAttrs (("_class", AttrValue.strSet []) :: attrs) = serializeAttrs attrs := by
  have hlow := subclasses_lower name ty hreg
  refine ⟨?_, rfl, rfl, rfl⟩
  rw [elementNew]
  simp only [hlow, hreg]
  rw [default_update_fresh attrs hno hnd]

/-! ### Dict lookup lemmas -/

theorem dict_lookup_set {α : Type} (k k' : String) (v : α) (d : List (String × α)) :
    dict_lookup k (dict_set d k' v) = if k' = k then some v else dict_lookup k d := by
  induction d with
  | nil =>
    rw [show dict_set ([] : List (String × α)) k' v = [(k', v)] from rfl]
    rfl
  | cons kv d ih =>
    obtain ⟨k0, v0⟩ := kv
    rw [dict_set]
    by_cases h0 : k0 = k'
    · rw [if_pos h0]
      subst h0
      by_cases hk : k0 = k
      · subst hk
        rw [dict_lookup, if_pos rfl, if_pos rfl]
      · rw [dict_lookup, if_neg hk, if_neg hk, dict_lookup, if_neg hk]
    · rw [if_neg h0]
      rw [dict_lookup]
      by_cases hk : k0 = k
      · subst hk
        rw [if_pos rfl]
        have hne : ¬ k' = k0 := fun hc => h0 hc.symm
        rw [if_neg hne, dict_lookup, if_pos rfl]
      · rw [if_neg hk, ih, dict_lookup, if_neg hk]

theorem dict_lookup_none_of_not_mem {α : Type} (k : String) (d : List (String × α))
    (h : k ∉ d.map Prod.fst) : dict_lookup k d = none := by
  induction d with
  | nil => rfl
  | cons kv d ih =>
    rw [List.map_cons, List.mem_cons] at h
    rw [dict_lookup]
    rw [if_neg fun hc => h (Or.inl hc.symm)]
    exact ih fun hc => h (Or.inr hc)

theorem dict_lookup_update {α : Type} (k : String) (d upd : List (String × α))
    (hnd : (upd.map Prod.fst).Nodup) :
    dict_lookup k (dict_update d upd) =
      match dict_lookup k upd with
      | some v => some v
      | none => dict_lookup k d := by
  induction upd generalizing d with
  | nil => rfl
  | cons kv rest ih =>
    rw [List.map_cons, List.nodup_cons] at hnd
    rw [dict_update_cons_upd, ih _ hnd.2, dict_lookup]
    by_cases hk : kv.1 = k
    · rw [if_pos hk]
      have hrest : dict_lookup k rest = none := by
        refine dict_lookup_none_of_not_mem k rest ?_
        rw [← hk]
        exact hnd.1
      rw [hrest, dict_lookup_set, if_pos hk]
    · rw [if_neg hk, dict_lookup_set, if_neg hk]

theorem dict_lookup_of_mem_nodup {α : Type} (kv : String × α) (d : List (String × α))
    (hnd : (d.map Prod.fst).Nodup) (hm : kv ∈ d) : dict_lookup kv.1 d = some kv.2 := by
  induction d with
  | nil => cases hm
  | cons kv0 rest ih =>
    rw [List.map_cons, List.nodup_cons] at hnd
    rcases List.mem_cons.mp hm with hm | hm
    · subst hm
      rw [dict_lookup, if_pos rfl]
    · rw [dict_lookup]
      by_cases hk : kv0.1 = kv.1
      · exact absurd (hk ▸ List.mem_map_of_mem Prod.fst hm) hnd.1
      · rw [if_neg hk]
        exact ih hnd.2 hm

theorem dict_contains_of_mem {α : Type} (kv : String × α) (d : List (String × α))
    (hm : kv ∈ d) : dict_contains kv.1 d = true := by
  induction d with
  | nil => cases hm
  | cons kv0 rest ih =>
    rw [dict_contains, dict_lookup]
    by_cases hk : kv0.1 = kv.1
    · rw [if_pos hk]
      rfl
    · rcases List.mem_cons.mp hm with hm | hm
      · exact absurd (congrArg Prod.fst hm).symm hk
      · rw [if_neg hk]
        exact ih hm

theorem pyEqAttrValue_refl (v : AttrValue) : pyEqAttrValue v v = true := by
  cases v with
  | str s => simp [pyEqAttrValue]
  | strSet l =>
    rw [pyEqAttrValue]
    simp only [Bool.and_self]
    rw [List.all_eq_true]
    intro x hx
    exact List.elem_eq_true_of_mem hx

theorem pyEqAttrs_of_lookup (d1 d2 : List (String × AttrValue))
    (hnd1 : (d1.map Prod.fst).Nodup)
    (hlk : ∀ k, dict_lookup k d1 = dict_lookup k d2) : pyEqAttrs d1 d2 = true := by
  rw [pyEqAttrs, Bool.and_eq_true, List.all_eq_true, List.all_eq_true]
  constructor
  · intro kv hm
    have h1 : dict_lookup kv.1 d2 = some kv.2 := by
      rw [← hlk kv.1]
      exact dict_lookup_of_mem_nodup kv d1 hnd1 hm
    rw [h1]
    exact pyEqAttrValue_refl kv.2
  · intro kv hm
    have h2 := dict_contains_of_mem kv d2 hm
    rw [dict_contains] at h2 ⊢
    rw [hlk kv.1]
    exact h2

theorem update_default_lookup (attrs : List (String × AttrValue))
    (hcl : dict_contains "_class" attrs = true)
    (hnd : (attrs.map Prod.fst).Nodup) (k : String) :
    dict_lookup k (dict_update default_attributes attrs) = dict_lookup k attrs := by
  rw [dict_lookup_update k default_attributes attrs hnd]
  match hl : dict_lookup k attrs with
  | some v => rfl
  | none =>
    rw [default_attributes, dict_lookup]
    by_cases hk : k = "_class"
    · subst hk
      rw [dict_contains, hl] at hcl
      cases hcl
    · rw [if_neg fun hc => hk hc.symm]
      rfl

/-! ### Key preservation through dict update -/

theorem dict_set_keys {α : Type} (d : List (String × α)) (k : String) (v : α) :
    (dict_set d k v).map Prod.fst =
      if dict_contains k d then d.map Prod.fst else d.map Prod.fst ++ [k] := by
  induction d with
  | nil => rfl
  | cons kv rest ih =>
    obtain ⟨k0, v0⟩ := kv
    rw [dict_set, dict_contains, dict_lookup]
    by_cases h0 : k0 = k
    · rw [if_pos h0, if_pos h0]
      simp
    · rw [if_neg h0, if_neg h0, List.map_cons, ih, dict_contains]
      split
      · rfl
      · simp

theorem dict_set_keys_nodup {α : Type} (d : List (String × α)) (k : String) (v : α)
    (h : (d.map Prod.fst).Nodup) : ((dict_set d k v).map Prod.fst).Nodup := by
  rw [dict_set_keys]
  split
  · exact h
  · rename_i hc
    rw [List.nodup_append]
    refine ⟨h, List.nodup_singleton k, ?_⟩
    intro x hx hx2
    rw [List.mem_singleton] at hx2
    subst hx2
    rcases List.mem_map.mp hx with ⟨kv, hkv, hfst⟩
    have := dict_contains_of_mem kv d hkv
    rw [hfst] at this
    exact hc this

theorem dict_update_keys_nodup {α : Type} (d upd : List (String × α))
    (h : (d.map Prod.fst).Nodup) : ((dict_update d upd).map Prod.fst).Nodup := by
  induction upd generalizing d with
  | nil => exact h
  | cons kv rest ih =>
    rw [dict_update_cons_upd]
    exact ih _ (dict_set_keys_nodup d kv.1 kv.2 h)

/-! ### Heap copy and render: frame properties -/

theorem copyH_spec (h : Heap) (a : Nat) (h1 : Heap) (ca : Nat)
    (hc : copyH h a = some (h1, ca)) :
    ∃ obj, h[a]? = some obj ∧
      h1 = h ++ [⟨strToLower obj.name,
        dict_update default_attributes obj.attributes, obj.children⟩] ∧
      ca = h.length ∧ a < h.length := by
  rw [copyH] at hc
  split at hc
  · cases hc
  · rename_i obj hobj
    split at hc
    · cases hc
    · rw [Option.some_inj] at hc
      refine ⟨obj, hobj, ?_, ?_, ?_⟩
      · exact (congrArg Prod.fst hc).symm
      · exact (congrArg Prod.snd hc).symm
      · by_contra hlt
        rw [List.getElem?_eq_none (by omega)] at hobj
        cases hobj

theorem renderT_preserves (fuel : Nat) :
    ∀ (h : Heap) (task : RTask) (h' : Heap) (res : RRes),
      renderT fuel h task = some (h', res) →
      (∀ i, i < h.length → h'[i]? = h[i]?) ∧ h.length ≤ h'.length ∧
      (∀ a', res = .addr a' → h.length ≤ a') := by
  induction fuel with
  | zero =>
    intro h task h' res hr
    cases hr
  | succ f ih =>
    intro h task h' res hr
    match task with
    | .one a =>
      rw [renderT] at hr
      split at hr
      · cases hr
      · rename_i obj hobj
        split at hr
        · cases hr
        · split at hr
          · cases hr
          · rename_i hp h1 ca hcopy
            obtain ⟨obj2, hobj2, hh1, hca, halt⟩ := copyH_spec h a h1 ca hcopy
            split at hr
            · rename_i h2 done hkids
              have hk := ih h1 (.kids obj.children []) h2 (.childs done) hkids
              split at hr
              · cases hr
              · rename_i cobj hcobj
                rw [Option.some_inj] at hr
                have hh' : h' = (h2.set ca ⟨cobj.name, cobj.attributes, done⟩).set ca
                    ⟨cobj.name, cobj.attributes,
                      shallowNormChildrenH
                        (h2.set ca ⟨cobj.name, cobj.attributes, done⟩) done⟩ :=
                  (congrArg Prod.fst hr).symm
                have hres : res = .addr ca := (congrArg Prod.snd hr).symm
                have hlen1 : h1.length = h.length + 1 := by
                  rw [hh1]
                  simp
                refine ⟨?_, ?_, ?_⟩
                · intro i hi
                  rw [hh']
                  rw [List.getElem?_set_ne (by omega)]
                  rw [List.getElem?_set_ne (by omega)]
                  rw [hk.1 i (by omega)]
                  rw [hh1]
                  rw [List.getElem?_append_left (by omega)]
                · rw [hh']
                  simp only [List.length_set]
                  omega
                · intro a' ha'
                  rw [hres] at ha'
                  cases ha'
                  omega
            · cases hr
    | .kids [] acc =>
      rw [renderT] at hr
      rw [Option.some_inj] at hr
      have hh' : h' = h := (congrArg Prod.fst hr).symm
      have hres : res = .childs acc.reverse := (congrArg Prod.snd hr).symm
      subst hh'
      refine ⟨fun i _ => rfl, Nat.le_refl _, ?_⟩
      intro a' ha'
      rw [hres] at ha'
      cases ha'
    | .kids (.str s :: rest) acc =>
      rw [renderT] at hr
      have hk := ih h (.kids rest (.str s :: acc)) h' res hr
      refine ⟨hk.1, hk.2.1, ?_⟩
      intro a' ha'
      exact hk.2.2 a' ha'
    | .kids (.ref b :: rest) acc =>
      rw [renderT] at hr
      split at hr
      · rename_i ha hb' hone
        have h1 := ih h (.one b) ha (.addr hb') hone
        have h2 := ih ha (.kids rest (.ref hb' :: acc)) h' res hr
        refine ⟨?_, le_trans h1.2.1 h2.2.1, ?_⟩
        · intro i hi
          rw [h2.1 i (lt_of_lt_of_le hi h1.2.1)]
          exact h1.1 i hi
        · intro a' ha'
          exact le_trans h1.2.1 (h2.2.2 a' ha')
      · cases hr

theorem renderT_one_addr (fuel : Nat) (h : Heap) (a : Nat) (h' : Heap) (a' : Nat)
    (hr : renderT fuel h (.one a) = some (h', .addr a')) : a' = h.length := by
  cases fuel with
  | zero => cases hr
  | succ f =>
    rw [renderT] at hr
    split at hr
    · cases hr
    · split at hr
      · cases hr
      · split at hr
        · cases hr
        · rename_i hp h1 ca hcopy
          obtain ⟨obj2, hobj2, hh1, hca, halt⟩ := copyH_spec h a h1 ca hcopy
          split at hr
          · split at hr
            · cases hr
            · cases hr
              exact hca
          · cases hr

/-! ### Claim C9 -/

/-- Claim C9: on a tree whose types all have the default `transform` (the
model's registry), a successful `render` returns a freshly allocated root
(a new tree: its address did not exist before the call, in particular it is
not the argument) and leaves every pre-existing heap object — the argument
node and its whole subtree included — exactly as it was: name, attribute
dict and child list unchanged. -/
theorem render_returns_new_tree (fuel : Nat) (h h' : Heap) (a a' : Nat)
    (hr : renderH fuel h a = some (h', a')) :
    (∀ i, i < h.length → h'[i]? = h[i]?) ∧ h.length ≤ h'.length ∧
    a' = h.length ∧ a' ≠ a := by
  rw [renderH] at hr
  split at hr
  · rename_i h2 a2 hT
    cases hr
    have hp := renderT_preserves fuel h (.one a) h' (.addr a') hT
    have ha2 := renderT_one_addr fuel h a h' a' hT
    have halt : a < h.length := by
      cases fuel with
      | zero => cases hT
      | succ f =>
        rw [renderT] at hT
        split at hT
        · cases hT
        · rename_i obj hobj
          by_contra hlt
          rw [List.getElem?_eq_none (by omega)] at hobj
          cases hobj
    exact ⟨hp.1, hp.2.1, ha2, by omega⟩
  · cases hr

theorem render_returns_new_tree_witness :
    renderH 3 [⟨"div", default_attributes, [HChild.str "x"]⟩] 0 =
      some ([⟨"div", default_attributes, [HChild.str "x"]⟩,
             ⟨"div", default_attributes, [HChild.str "x"]⟩], 1) ∧
    ([⟨"div", default_attributes, [HChild.str "x"]⟩,
      ⟨"div", default_attributes, [HChild.str "x"]⟩] : Heap)[0]? =
      ([⟨"div", default_attributes, [HChild.str "x"]⟩] : Heap)[0]? ∧
    (1 : Nat) ≠ 0 := by
  refine ⟨rfl, ?_, ?_⟩
  · exact (render_returns_new_tree 3 [⟨"div", default_attributes, [HChild.str "x"]⟩]
      [⟨"div", default_attributes, [HChild.str "x"]⟩,
       ⟨"div", default_attributes, [HChild.str "x"]⟩] 0 1 rfl).1 0 (by decide)
  · exact (render_returns_new_tree 3 [⟨"div", default_attributes, [HChild.str "x"]⟩]
      [⟨"div", default_attributes, [HChild.str "x"]⟩,
       ⟨"div", default_attributes, [HChild.str "x"]⟩] 0 1 rfl).2.2.2

/-! ### Claim C8 -/

/-- Claim C8 as stated is false: `copy` rebuilds the attribute dict from
`default_attributes()`, so an element whose `_class` attribute has been
deleted gets a copy whose attribute mapping is NOT equal to the original's
(the copy has `_class`, the original does not). -/
theorem copy_attrs_counterexample :
    copyH [⟨"div", [], []⟩] 0 =
      some ([⟨"div", [], []⟩, ⟨"div", [("_class", AttrValue.strSet [])], []⟩], 1) ∧
    pyEqAttrs [("_class", AttrValue.strSet [])] [] = false :=
  ⟨rfl, rfl⟩

/-- Claim C8 (amended): for every element whose type name is registered and
whose attributes still contain the `_class` key — as every freshly
constructed element does — `copy` allocates a new object (fresh address,
distinct from the original, every pre-existing object untouched) with the
same type name, an attribute mapping equal to the original's under Python
dict equality, and literally the same child reference list (children and
attribute values are not deep-cloned). -/
theorem copy_is_shallow (h : Heap) (a : Nat) (obj : HObj) (ty : NodeType)
    (hobj : h[a]? = some obj)
    (hreg : subclasses obj.name = some ty)
    (hcl : dict_contains "_class" obj.attributes = true)
    (hnd : (obj.attributes.map Prod.fst).Nodup) :
    copyH h a = some (h ++ [⟨obj.name,
        dict_update default_attributes obj.attributes, obj.children⟩], h.length) ∧
    h.length ≠ a ∧
    (∀ i, i < h.length →
      (h ++ [⟨obj.name, dict_update default_attributes obj.attributes,
        obj.children⟩])[i]? = h[i]?) ∧
    pyEqAttrs (dict_update default_attributes obj.attributes) obj.attributes = true := by
  have hlow := subclasses_lower obj.name ty hreg
  have halt : a < h.length := by
    by_contra hlt
    rw [List.getElem?_eq_none (by omega)] at hobj
    cases hobj
  refine ⟨?_, by omega, ?_, ?_⟩
  · simp only [copyH, hobj, hlow, hreg]
  · intro i hi
    rw [List.getElem?_append_left (by omega)]
  · refine pyEqAttrs_of_lookup _ _ ?_ (update_default_lookup obj.attributes hcl hnd)
    refine dict_update_keys_nodup default_attributes obj.attributes ?_
    rw [default_attributes]
    simp

theorem copy_is_shallow_witness :
    copyH [⟨"div", [("_class", AttrValue.strSet ["a"]), ("id", AttrValue.str "g")],
        [HChild.str "t"]⟩] 0 =
      some ([⟨"div", [("_class", AttrValue.strSet ["a"]), ("id", AttrValue.str "g")],
          [HChild.str "t"]⟩,
        ⟨"div", dict_update default_attributes
            [("_class", AttrValue.strSet ["a"]), ("id", AttrValue.str "g")],
          [HChild.str "t"]⟩], 1) ∧
    pyEqAttrs (dict_update default_attributes
        [("_class", AttrValue.strSet ["a"]), ("id", AttrValue.str "g")])
      [("_class", AttrValue.strSet ["a"]), ("id", AttrValue.str "g")] = true := by
  have h := copy_is_shallow
    [⟨"div", [("_class", AttrValue.strSet ["a"]), ("id", AttrValue.str "g")],
      [HChild.str "t"]⟩] 0
    ⟨"div", [("_class", AttrValue.strSet ["a"]), ("id", AttrValue.str "g")],
      [HChild.str "t"]⟩ ⟨false⟩ rfl rfl rfl (by decide)
  exact ⟨h.1, h.2.2.2⟩

theorem fresh_node_has_empty_class_witness :
    elementNew "div" [] [("id", AttrValue.str "x")] =
      .ok (.elem "div"
        [("_class", AttrValue.strSet []), ("id", AttrValue.str "x")] []) ∧
    dict_contains "_class"
      [("_class", AttrValue.strSet []), ("id", AttrValue.str "x")] = true ∧
    dict_lookup "_class"
      [("_class", AttrValue.strSet []), ("id", AttrValue.str "x")] =
      some (AttrValue.strSet []) ∧
    serializeAttrs [("_class", AttrValue.strSet []), ("id", AttrValue.str "x")] =
      serializeAttrs [("id", AttrValue.str "x")] :=
  fresh_node_has_empty_class "div" ⟨false⟩ [] [("id", AttrValue.str "x")]
    rfl rfl (by decide)

/-! ### Registry facts for the round trip -/

theorem all_elements_good :
    ALL_ELEMENTS.all (fun n =>
      goodTagName n && (HTML_EMPTY.contains n == VOID_ELEMENTS.contains n)) = true := by
  decide

theorem registered_good (n : String) (ty : NodeType) (h : subclasses n = some ty)
    (hne : ¬n = "") :
    goodTagName n = true ∧ HTML_EMPTY.contains n = ty.void := by
  rw [subclasses, if_neg hne] at h
  split at h
  · rename_i h2
    rw [Option.some_inj] at h
    have hm : n ∈ ALL_ELEMENTS := List.mem_of_elem_eq_true h2
    have h3 := List.all_eq_true.mp all_elements_good _ hm
    rw [Bool.and_eq_true] at h3
    refine ⟨h3.1, ?_⟩
    rw [← h]
    exact beq_iff_eq.mp h3.2
  · cases h

/-! ### Character-class facts -/

theorem pySpace_not_alpha (c : Char) (h : c.isAlpha = true) : pySpace c = false := by
  by_contra hc
  rw [Bool.not_eq_false, pySpace] at hc
  have hm := List.mem_of_elem_eq_true hc
  fin_cases hm <;> exact absurd h (by decide)

theorem safeTextChar_facts (c : Char) (h : safeTextChar c = true) :
    ¬c = '&' ∧ ¬c = '<' ∧ ¬c = '>' ∧ ¬c = '"' := by
  rw [safeTextChar] at h
  simp only [Bool.not_eq_true', Bool.or_eq_false_iff, decide_eq_false_iff_not] at h
  exact ⟨h.1.1.1, h.1.1.2, h.1.2, h.2⟩

/-! ### takeWhile/dropWhile over a satisfying prefix -/

theorem takeWhile_append_all {α : Type} (p : α → Bool) (xs ys : List α)
    (h : ∀ x ∈ xs, p x = true) :
    (xs ++ ys).takeWhile p = xs ++ ys.takeWhile p := by
  induction xs with
  | nil => simp
  | cons x r ih =>
    rw [List.cons_append, List.takeWhile_cons, if_pos (h x (List.mem_cons_self x r)),
      ih fun y hy => h y (List.mem_cons_of_mem x hy), List.cons_append]

theorem dropWhile_append_all {α : Type} (p : α → Bool) (xs ys : List α)
    (h : ∀ x ∈ xs, p x = true) :
    (xs ++ ys).dropWhile p = ys.dropWhile p := by
  induction xs with
  | nil => simp
  | cons x r ih =>
    rw [List.cons_append, List.dropWhile_cons, if_pos (h x (List.mem_cons_self x r)),
      ih fun y hy => h y (List.mem_cons_of_mem x hy)]

theorem takeWhile_cons_neg {α : Type} (p : α → Bool) (y : α) (ys : List α)
    (h : p y = false) : (y :: ys).takeWhile p = [] := by
  rw [List.takeWhile_cons, if_neg (by rw [h]; exact Bool.false_ne_true)]

theorem dropWhile_cons_neg {α : Type} (p : α → Bool) (y : α) (ys : List α)
    (h : p y = false) : (y :: ys).dropWhile p = y :: ys := by
  rw [List.dropWhile_cons, if_neg (by rw [h]; exact Bool.false_ne_true)]

/-! ### The escapes and the unescape are the identity on safe text -/

theorem unescapeF_no_amp (f : Nat) : ∀ cs : List Char, cs.length ≤ f →
    (∀ c ∈ cs, ¬c = '&') → unescapeF f cs = cs := by
  induction f with
  | zero =>
    intro cs hl _
    have : cs = [] := List.eq_nil_of_length_eq_zero (Nat.le_zero.mp hl)
    subst this
    rfl
  | succ f ih =>
    intro cs hl h
    cases cs with
    | nil => rfl
    | cons c rest =>
      rw [unescapeF, if_neg (h c (List.mem_cons_self c rest)),
        ih rest (by simpa using Nat.le_of_succ_le_succ hl)
          fun x hx => h x (List.mem_cons_of_mem c hx)]

theorem unescapeChars_id (cs : List Char) (h : ∀ c ∈ cs, ¬c = '&') :
    unescapeChars cs = cs :=
  unescapeF_no_amp cs.length cs (Nat.le_refl _) h

theorem unescapeChars_safe (cs : List Char)
    (h : ∀ c ∈ cs, safeTextChar c = true) : unescapeChars cs = cs :=
  unescapeChars_id cs fun c hc => (safeTextChar_facts c (h c hc)).1

theorem escape_cdata_id (cs : List Char)
    (h : ∀ c ∈ cs, safeTextChar c = true) : escape_cdata cs = cs := by
  induction cs with
  | nil => rfl
  | cons c rest ih =>
    obtain ⟨h1, h2, h3, _⟩ := safeTextChar_facts c (h c (List.mem_cons_self c rest))
    rw [escape_cdata, List.flatMap_cons, if_neg h1, if_neg h2, if_neg h3]
    rw [show (rest.flatMap fun c =>
      if c = '&' then "&amp;".data
      else if c = '<' then "&lt;".data
      else if c = '>' then "&gt;".data
      else [c]) = escape_cdata rest from rfl]
    rw [ih fun x hx => h x (List.mem_cons_of_mem c hx)]
    rfl

theorem escape_attrib_html_id (cs : List Char)
    (h : ∀ c ∈ cs, safeTextChar c = true) : escape_attrib_html cs = cs := by
  induction cs with
  | nil => rfl
  | cons c rest ih =>
    obtain ⟨h1, _, h3, h4⟩ := safeTextChar_facts c (h c (List.mem_cons_self c rest))
    rw [escape_attrib_html, List.flatMap_cons, if_neg h1, if_neg h3, if_neg h4]
    rw [show (rest.flatMap fun c =>
      if c = '&' then "&amp;".data
      else if c = '>' then "&gt;".data
      else if c = '"' then "&quot;".data
      else [c]) = escape_attrib_html rest from rfl]
    rw [ih fun x hx => h x (List.mem_cons_of_mem c hx)]
    rfl

/-! ### `split` inverts `" ".join` on good tokens -/

theorem isEmpty_false_data (s : String) (h : s.isEmpty = false) : s.data ≠ [] := by
  intro hc
  cases s with
  | mk data =>
    simp only at hc
    subst hc
    exact absurd h (by decide)

theorem goodToken_facts (t : String) (h : goodToken t = true) :
    t.data ≠ [] ∧ (∀ c ∈ t.data, pySpace c = false) ∧
      (∀ c ∈ t.data, safeTextChar c = true) := by
  rw [goodToken, Bool.and_eq_true, Bool.not_eq_true'] at h
  refine ⟨isEmpty_false_data t h.1, ?_, ?_⟩
  · intro c hc
    have := List.all_eq_true.mp h.2 c hc
    rw [Bool.and_eq_true, Bool.not_eq_true'] at this
    exact this.2
  · intro c hc
    have := List.all_eq_true.mp h.2 c hc
    rw [Bool.and_eq_true] at this
    exact this.1

theorem pySplitWsGo_nospace (w : List Char) : ∀ (acc : List Char) (rest : List Char),
    (∀ c ∈ w, pySpace c = false) →
    pySplitWsGo acc (w ++ rest) = pySplitWsGo (w.reverse ++ acc) rest := by
  induction w with
  | nil => intro acc rest _; simp
  | cons c wr ih =>
    intro acc rest h
    rw [List.cons_append, pySplitWsGo,
      if_neg (by rw [h c (List.mem_cons_self c wr)]; exact Bool.false_ne_true),
      ih (c :: acc) rest fun x hx => h x (List.mem_cons_of_mem c hx)]
    rw [List.reverse_cons, List.append_assoc]
    rfl

theorem list_isEmpty_false {α : Type} (l : List α) (h : l ≠ []) :
    l.isEmpty = false := by
  cases l with
  | nil => exact absurd rfl h
  | cons a r => rfl

theorem pySplitWs_classJoin (cls : List String) (h : cls.all goodToken = true) :
    pySplitWs (classJoin cls) = cls := by
  induction cls with
  | nil => rfl
  | cons t rest ih =>
    rw [List.all_cons, Bool.and_eq_true] at h
    obtain ⟨hne, hns, _⟩ := goodToken_facts t h.1
    have hrevne : t.data.reverse ≠ [] := by
      intro hc
      exact hne (by simpa using congrArg List.reverse hc)
    cases rest with
    | nil =>
      rw [show classJoin [t] = t.data from rfl, pySplitWs,
        show t.data = t.data ++ [] by simp, pySplitWsGo_nospace t.data [] [] hns,
        List.append_nil, pySplitWsGo, if_neg (by
          rw [list_isEmpty_false _ hrevne]; exact Bool.false_ne_true)]
      rw [List.reverse_reverse]
    | cons t2 r2 =>
      rw [show classJoin (t :: t2 :: r2) = t.data ++ ' ' :: classJoin (t2 :: r2)
          from rfl,
        pySplitWs, pySplitWsGo_nospace t.data [] _ hns, List.append_nil,
        pySplitWsGo, if_pos (show pySpace ' ' = true from rfl),
        if_neg (by rw [list_isEmpty_false _ hrevne]; exact Bool.false_ne_true)]
      rw [List.reverse_reverse]
      exact congrArg (List.cons t) (ih h.2)

/-! ### Remainder length bounds for the scanners -/

theorem parseAttrsF_length : ∀ (f : Nat) (cs : List Char)
    (acc : List (String × String)),
    (parseAttrsF f cs acc).2.2.length ≤ cs.length := by
  intro f
  induction f with
  | zero => intro cs acc; simp [parseAttrsF]
  | succ f ih =>
    intro cs acc
    cases cs with
    | nil => simp [parseAttrsF]
    | cons c rest =>
      rw [parseAttrsF]
      split
      · exact Nat.le_trans (ih rest acc) (Nat.le_succ _)
      · split
        · split
          · simp only [List.length_cons]
            have := List.length_tail rest
            omega
          · exact Nat.le_trans (ih rest acc) (Nat.le_succ _)
        · split
          · simp [List.length_cons]
          · dsimp only
            have hdw : (rest.dropWhile attrNameChar).length ≤ rest.length :=
              length_dropWhile_le _ _
            have hdw2 : ((rest.dropWhile attrNameChar).dropWhile pySpace).length ≤
                (rest.dropWhile attrNameChar).length := length_dropWhile_le _ _
            split
            · rename_i r2 heq2
              have hr2 : r2.length < (rest.dropWhile attrNameChar).length + 1 := by
                have := congrArg List.length heq2
                simp only [List.length_cons] at this
                omega
              have hb0 : ((r2.dropWhile fun x => x = '=').dropWhile pySpace).length ≤
                  r2.length :=
                Nat.le_trans (length_dropWhile_le _ _) (length_dropWhile_le _ _)
              generalize hgen : (r2.dropWhile fun x => x = '=').dropWhile pySpace = r4g
                at hb0 ⊢
              split
              · rename_i r5
                simp only [List.length_cons] at hb0
                split
                · rename_i r7 heq7
                  have hr7 : r7.length <
                      (r5.dropWhile fun x => !(x = '"')).length + 1 := by
                    have := congrArg List.length heq7
                    simp only [List.length_cons] at this
                    omega
                  have hb2 : (r5.dropWhile fun x => !(x = '"')).length ≤ r5.length :=
                    length_dropWhile_le _ _
                  have := ih r7 ((strToLower ⟨c :: rest.takeWhile attrNameChar⟩,
                    (⟨unescapeChars (r5.takeWhile fun x => !(x = '"'))⟩ : String)) :: acc)
                  simp only [List.length_cons]
                  omega
                · simp
              · rename_i r5
                simp only [List.length_cons] at hb0
                split
                · rename_i r7 heq7
                  have hr7 : r7.length <
                      (r5.dropWhile fun x => !(x = '\'')).length + 1 := by
                    have := congrArg List.length heq7
                    simp only [List.length_cons] at this
                    omega
                  have hb2 : (r5.dropWhile fun x => !(x = '\'')).length ≤ r5.length :=
                    length_dropWhile_le _ _
                  have := ih r7 ((strToLower ⟨c :: rest.takeWhile attrNameChar⟩,
                    (⟨unescapeChars (r5.takeWhile fun x => !(x = '\''))⟩ : String)) :: acc)
                  simp only [List.length_cons]
                  omega
                · simp
              · rename_i hne1 hne2
                have hb2 : (r4g.dropWhile fun x => !(pySpace x || x = '>')).length ≤
                    r4g.length := length_dropWhile_le _ _
                have := ih (r4g.dropWhile fun x => !(pySpace x || x = '>'))
                  ((strToLower ⟨c :: rest.takeWhile attrNameChar⟩,
                    (⟨unescapeChars (r4g.takeWhile fun x => !(pySpace x || x = '>'))⟩ :
                      String)) :: acc)
                simp only [List.length_cons]
                omega
            · have := ih (rest.dropWhile attrNameChar)
                ((strToLower ⟨c :: rest.takeWhile attrNameChar⟩, "") :: acc)
              simp only [List.length_cons]
              omega

theorem skipPastGt_length (cs : List Char) : (skipPastGt cs).length ≤ cs.length := by
  rw [skipPastGt]
  have := length_dropWhile_le (fun c => !(c = '>')) cs
  split
  · rename_i r heq
    have := congrArg List.length heq
    simp only [List.length_cons] at this
    omega
  · simp

theorem scanEndTag_length (cs : List Char) :
    (scanEndTag cs).2.length ≤ cs.length := by
  rw [scanEndTag]
  have h0 := length_dropWhile_le pySpace cs
  split
  · rename_i c r heq
    have hcr : r.length < cs.length := by
      have := congrArg List.length heq
      simp only [List.length_cons] at this
      omega
    split
    · dsimp only
      have h1 := length_dropWhile_le endTagNameChar r
      split
      · rename_i r4 heq4
        show r4.length ≤ cs.length
        have := congrArg List.length heq4
        have h2 := length_dropWhile_le pySpace (r.dropWhile endTagNameChar)
        simp only [List.length_cons] at this
        omega
      · show (skipPastGt (r.dropWhile endTagNameChar)).length ≤ cs.length
        have := skipPastGt_length (r.dropWhile endTagNameChar)
        have h1 := length_dropWhile_le endTagNameChar r
        omega
    · show (skipPastGt (c :: r)).length ≤ cs.length
      have := skipPastGt_length (c :: r)
      simp only [List.length_cons] at this ⊢
      omega
  · simp

theorem scanStartTag_length (c : Char) (rest : List Char) :
    (scanStartTag c rest).2.length ≤ rest.length := by
  rw [scanStartTag]
  have h0 := length_dropWhile_le tagNameChar rest
  have h1 : (parseAttrs (rest.dropWhile tagNameChar) []).2.2.length ≤
      (rest.dropWhile tagNameChar).length :=
    parseAttrsF_length (rest.dropWhile tagNameChar).length
      (rest.dropWhile tagNameChar) []
  split <;> rename_i heq <;>
    exact le_trans (le_of_eq (congrArg (fun p => p.2.2.length) heq).symm)
      (le_trans h1 h0)

/-! ### Scanning the serializer's own output -/

theorem goodTagName_facts (n : String) (h : goodTagName n = true) :
    ∃ c tail, n.data = c :: tail ∧ c.isAlpha = true ∧
      (∀ x ∈ tail, tagNameChar x = true) ∧
      (∀ x ∈ n.data, endTagNameChar x = true) ∧ strToLower n = n := by
  rw [goodTagName] at h
  split at h
  · cases h
  · rename_i c tail heq
    simp only [Bool.and_eq_true, List.all_eq_true, decide_eq_true_eq] at h
    exact ⟨c, tail, heq, h.1.1.1, h.1.1.2, heq ▸ h.1.2, h.2⟩

theorem attrNameChar_facts (c : Char) (h : attrNameChar c = true) :
    pySpace c = false ∧ ¬c = '/' ∧ ¬c = '=' ∧ ¬c = '>' := by
  rw [attrNameChar] at h
  simp only [Bool.not_eq_true', Bool.or_eq_false_iff, decide_eq_false_iff_not] at h
  exact ⟨h.1.1.1, h.1.1.2, h.1.2, h.2⟩

theorem goodKey_facts (k : String) (h : goodKey k = true) :
    (python_name_to_html k).data ≠ [] ∧
      (∀ c ∈ (python_name_to_html k).data, attrNameChar c = true) ∧
      strToLower (python_name_to_html k) = python_name_to_html k ∧
      html_name_to_python (python_name_to_html k) = k := by
  rw [goodKey] at h
  simp only [Bool.and_eq_true, Bool.not_eq_true', List.all_eq_true,
    decide_eq_true_eq] at h
  exact ⟨isEmpty_false_data _ h.1.1.1, fun c hc => (h.1.1.2 c hc).1, h.1.2, h.2⟩

theorem emitChildren_head (cs : List Node) (rest : List Char)
    (hn : headNotStr cs = true) (hr : rest = [] ∨ rest.head? = some '<') :
    emitChildren cs ++ rest = [] ∨ (emitChildren cs ++ rest).head? = some '<' := by
  cases cs with
  | nil =>
    rcases hr with hr | hr
    · left
      rw [hr]
      rfl
    · right
      rw [show emitChildren [] ++ rest = rest from rfl]
      exact hr
  | cons c cs2 =>
    cases c with
    | str s => cases hn
    | elem n a k =>
      right
      rfl

theorem scanEndTag_emit (n : String) (rest : List Char)
    (h : goodTagName n = true) :
    scanEndTag (n.data ++ '>' :: rest) = (some (.endTag n), rest) := by
  obtain ⟨c, tail, hdata, halpha, _, hend, hlow⟩ := goodTagName_facts n h
  rw [hdata, List.cons_append, scanEndTag,
    dropWhile_cons_neg pySpace c _ (pySpace_not_alpha c halpha)]
  dsimp only
  rw [if_pos halpha]
  have htail : ∀ x ∈ tail, endTagNameChar x = true := fun x hx =>
    hend x (hdata ▸ List.mem_cons_of_mem c hx)
  rw [takeWhile_append_all endTagNameChar tail _ htail,
    dropWhile_append_all endTagNameChar tail _ htail,
    takeWhile_cons_neg endTagNameChar '>' rest (by decide),
    dropWhile_cons_neg endTagNameChar '>' rest (by decide)]
  rw [List.append_nil, dropWhile_cons_neg pySpace '>' rest (by decide)]
  rw [show (⟨c :: tail⟩ : String) = n from by rw [← hdata]]
  rw [hlow]
  rfl

theorem parseAttrsF_emit : ∀ (pairs : List (String × String)) (f : Nat)
    (tail : List Char) (acc : List (String × String)),
    (∀ kv ∈ pairs, kv.1.data ≠ [] ∧ (∀ c ∈ kv.1.data, attrNameChar c = true) ∧
      strToLower kv.1 = kv.1 ∧ (∀ c ∈ kv.2.data, safeTextChar c = true)) →
    (pairs.flatMap emitAttr).length + 1 ≤ f →
    parseAttrsF f (pairs.flatMap emitAttr ++ '>' :: tail) acc =
      (acc.reverse ++ pairs, .gt, tail) := by
  intro pairs
  induction pairs with
  | nil =>
    intro f tail acc _ hf
    rw [List.flatMap_nil, List.nil_append]
    cases f with
    | zero => omega
    | succ f1 =>
      rw [parseAttrsF, if_neg (by decide), if_neg (by decide), if_pos rfl]
      rw [List.append_nil]
  | cons kv pairs' ih =>
    intro f tail acc hgood hf
    obtain ⟨hkne, hkchar, hklow, hvsafe⟩ := hgood kv (List.mem_cons_self kv pairs')
    obtain ⟨h, v⟩ := kv
    simp only at hkne hkchar hklow hvsafe
    have hlen : (emitAttr (h, v)).length = h.data.length + v.data.length + 4 := by
      rw [show emitAttr (h, v) = (' ' :: h.data) ++
        ('=' :: '"' :: escape_attrib_html v.data) ++ ['"'] from rfl]
      rw [escape_attrib_html_id v.data hvsafe]
      simp only [List.length_append, List.length_cons, List.length_nil]
      omega
    rw [List.flatMap_cons] at hf ⊢
    rw [List.length_append, hlen] at hf
    have hinput : (emitAttr (h, v) ++ pairs'.flatMap emitAttr) ++ '>' :: tail =
        ' ' :: (h.data ++ '=' :: '"' ::
          (v.data ++ '"' :: (pairs'.flatMap emitAttr ++ '>' :: tail))) := by
      rw [show emitAttr (h, v) = (' ' :: h.data) ++
        ('=' :: '"' :: escape_attrib_html v.data) ++ ['"'] from rfl]
      rw [escape_attrib_html_id v.data hvsafe]
      simp only [List.append_assoc, List.cons_append, List.singleton_append,
        List.nil_append]
    rw [hinput]
    cases f with
    | zero => omega
    | succ f1 =>
      rw [parseAttrsF, if_pos (show pySpace ' ' = true from rfl)]
      cases hd : h.data with
      | nil => exact absurd hd hkne
      | cons hc htail =>
        rw [List.cons_append]
        have hcfacts := attrNameChar_facts hc (hkchar hc (hd ▸ List.mem_cons_self hc htail))
        have htfacts : ∀ x ∈ htail, attrNameChar x = true := fun x hx =>
          hkchar x (hd ▸ List.mem_cons_of_mem hc hx)
        cases f1 with
        | zero =>
          rw [hd] at hf
          simp only [List.length_cons] at hf
          omega
        | succ f2 =>
          rw [parseAttrsF,
            if_neg (by rw [hcfacts.1]; exact Bool.false_ne_true),
            if_neg hcfacts.2.1, if_neg hcfacts.2.2.2]
          have htw : (htail ++ '=' :: '"' ::
              (v.data ++ '"' :: (pairs'.flatMap emitAttr ++ '>' ::
                tail))).takeWhile attrNameChar = htail := by
            rw [takeWhile_append_all attrNameChar htail _ htfacts,
              takeWhile_cons_neg attrNameChar '=' _ (by decide), List.append_nil]
          have hdw : (htail ++ '=' :: '"' ::
              (v.data ++ '"' :: (pairs'.flatMap emitAttr ++ '>' ::
                tail))).dropWhile attrNameChar =
              '=' :: '"' :: (v.data ++ '"' ::
                (pairs'.flatMap emitAttr ++ '>' :: tail)) := by
            rw [dropWhile_append_all attrNameChar htail _ htfacts,
              dropWhile_cons_neg attrNameChar '=' _ (by decide)]
          have e1 : ('=' :: '"' :: (v.data ++ '"' ::
              (pairs'.flatMap emitAttr ++ '>' :: tail))).dropWhile pySpace =
              '=' :: '"' :: (v.data ++ '"' ::
                (pairs'.flatMap emitAttr ++ '>' :: tail)) :=
            dropWhile_cons_neg pySpace '=' _ (by decide)
          have e2 : (('"' :: (v.data ++ '"' :: (pairs'.flatMap emitAttr ++ '>' ::
              tail))).dropWhile fun x => x = '=') =
              '"' :: (v.data ++ '"' :: (pairs'.flatMap emitAttr ++ '>' :: tail)) :=
            dropWhile_cons_neg _ '"' _ (by decide)
          have e3 : (('"' :: (v.data ++ '"' :: (pairs'.flatMap emitAttr ++ '>' ::
              tail))).dropWhile pySpace) = '"' :: (v.data ++ '"' ::
              (pairs'.flatMap emitAttr ++ '>' :: tail)) :=
            dropWhile_cons_neg pySpace '"' _ (by decide)
          have hvq : ∀ x ∈ v.data, (fun x => !(x = '"')) x = true := by
            intro x hx
            have hne := (safeTextChar_facts x (hvsafe x hx)).2.2.2
            simp [hne]
          have e4 : ((v.data ++ '"' :: (pairs'.flatMap emitAttr ++ '>' ::
              tail)).takeWhile fun x => !(x = '"')) = v.data := by
            rw [takeWhile_append_all _ v.data _ hvq,
              takeWhile_cons_neg _ '"' _ (by decide), List.append_nil]
          have e5 : ((v.data ++ '"' :: (pairs'.flatMap emitAttr ++ '>' ::
              tail)).dropWhile fun x => !(x = '"')) =
              '"' :: (pairs'.flatMap emitAttr ++ '>' :: tail) := by
            rw [dropWhile_append_all _ v.data _ hvq,
              dropWhile_cons_neg _ '"' _ (by decide)]
          simp only [htw, hdw, e1, e2, e3, e4, e5]
          rw [show (⟨hc :: htail⟩ : String) = h from by rw [← hd]]
          rw [hklow, unescapeChars_safe v.data hvsafe]
          rw [show (⟨v.data⟩ : String) = v from rfl]
          rw [ih f2 tail ((h, v) :: acc)
            (fun kv2 hm => hgood kv2 (List.mem_cons_of_mem _ hm)) (by omega)]
          simp

/-! ### The serialized attribute list of a well-formed dict -/

theorem nodeSize_pos (t : Node) : 1 ≤ nodeSize t := by
  cases t <;> rw [nodeSize] <;> omega

theorem attrsOK_facts (a : List (String × AttrValue)) (h : attrsOK a = true) :
    ∃ cls rest, a = ("_class", AttrValue.strSet cls) :: rest ∧
      clsCanonical cls = true ∧ (∀ kv ∈ rest, goodAttr kv = true) ∧
      ("_class" :: rest.map Prod.fst).Nodup := by
  cases a with
  | nil => cases h
  | cons kv rest =>
    obtain ⟨k, v⟩ := kv
    cases v with
    | str s => cases h
    | strSet cls =>
      rw [attrsOK] at h
      simp only [Bool.and_eq_true, decide_eq_true_eq, List.all_eq_true] at h
      exact ⟨cls, rest, by rw [h.1.1.1], h.1.1.2, h.1.2, h.2⟩

theorem goodAttr_facts (kv : String × AttrValue) (h : goodAttr kv = true) :
    ∃ v, kv.2 = AttrValue.str v ∧ goodKey kv.1 = true ∧
      (∀ c ∈ v.data, safeTextChar c = true) := by
  obtain ⟨k, val⟩ := kv
  cases val with
  | strSet l => cases h
  | str v =>
    rw [goodAttr, Bool.and_eq_true, List.all_eq_true] at h
    exact ⟨v, rfl, h.1, fun c hc => h.2 c hc⟩

theorem classJoin_safe (cls : List String)
    (h : ∀ t ∈ cls, ∀ c ∈ t.data, safeTextChar c = true) :
    ∀ c ∈ classJoin cls, safeTextChar c = true := by
  induction cls with
  | nil => intro c hc; cases hc
  | cons t rest ih =>
    cases rest with
    | nil =>
      intro c hc
      exact h t (List.mem_cons_self t []) c hc
    | cons t2 r2 =>
      intro c hc
      rw [show classJoin (t :: t2 :: r2) = t.data ++ ' ' :: classJoin (t2 :: r2)
        from rfl] at hc
      rcases List.mem_append.mp hc with hc | hc
      · exact h t (List.mem_cons_self t (t2 :: r2)) c hc
      · rcases List.mem_cons.mp hc with hc | hc
        · subst hc; decide
        · exact ih (fun u hu => h u (List.mem_cons_of_mem t hu)) c hc

theorem clsCanonical_facts (cls : List String) (h : clsCanonical cls = true) :
    (∀ t ∈ cls, goodToken t = true) ∧ sortStrings (dedupStrings cls) = cls := by
  rw [clsCanonical, Bool.and_eq_true, List.all_eq_true, decide_eq_true_eq] at h
  exact h

theorem serializeAttrs_shape (cls : List String)
    (rest : List (String × AttrValue)) (hc : clsCanonical cls = true)
    (hrest : ∀ kv ∈ rest, goodAttr kv = true)
    (hncl : ∀ kv ∈ rest, ¬kv.1 = "_class") :
    serializeAttrs (("_class", AttrValue.strSet cls) :: rest) =
      (if cls.isEmpty then [] else [("class", (⟨classJoin cls⟩ : String))]) ++
        rest.map fun kv => (python_name_to_html kv.1, pyStrAttrValue kv.2) := by
  have hcan := (clsCanonical_facts cls hc).2
  have hrmap : rest.filterMap (fun kv =>
      if kv.1 = "_class" then
        (str__classValue kv.2).map fun v => (python_name_to_html kv.1, v)
      else some (python_name_to_html kv.1, pyStrAttrValue kv.2)) =
      rest.map fun kv => (python_name_to_html kv.1, pyStrAttrValue kv.2) := by
    induction rest with
    | nil => rfl
    | cons kv r ih =>
      rw [List.filterMap_cons, if_neg (hncl kv (List.mem_cons_self kv r))]
      rw [List.map_cons]
      rw [ih (fun x hx => hrest x (List.mem_cons_of_mem kv hx))
        (fun x hx => hncl x (List.mem_cons_of_mem kv hx))]
  rw [serializeAttrs, List.filterMap_cons,
    if_pos (show (("_class", AttrValue.strSet cls).1 : String) = "_class" from rfl)]
  rw [show str__classValue ("_class", AttrValue.strSet cls).2 = str__class cls
    from rfl, str__class, hcan]
  by_cases he : cls.isEmpty = true
  · rw [if_pos he, if_pos he]
    dsimp only [Option.map]
    rw [List.nil_append]
    exact hrmap
  · rw [if_neg he, if_neg he]
    rw [show Option.map (fun v => (python_name_to_html
        ("_class", AttrValue.strSet cls).1, v)) (some (⟨classJoin cls⟩ : String)) =
      some ("class", (⟨classJoin cls⟩ : String)) from rfl]
    dsimp only
    rw [List.singleton_append]
    exact congrArg (List.cons ("class", (⟨classJoin cls⟩ : String))) hrmap

theorem serializeAttrs_good (a : List (String × AttrValue))
    (h : attrsOK a = true) :
    ∀ kv ∈ serializeAttrs a, kv.1.data ≠ [] ∧
      (∀ c ∈ kv.1.data, attrNameChar c = true) ∧ strToLower kv.1 = kv.1 ∧
      (∀ c ∈ kv.2.data, safeTextChar c = true) := by
  obtain ⟨cls, rest, ha, hc, hrest, hnd⟩ := attrsOK_facts a h
  rw [List.nodup_cons] at hnd
  have hncl : ∀ kv ∈ rest, ¬kv.1 = "_class" := by
    intro kv hm hce
    exact hnd.1 (hce ▸ List.mem_map_of_mem Prod.fst hm)
  subst ha
  rw [serializeAttrs_shape cls rest hc hrest hncl]
  intro kv hm
  rcases List.mem_append.mp hm with hm | hm
  · have hkv : kv = ("class", (⟨classJoin cls⟩ : String)) := by
      split at hm
      · cases hm
      · rw [List.mem_singleton] at hm
        exact hm
    subst hkv
    refine ⟨?_, ?_, ?_, ?_⟩
    · show ("class" : String).data ≠ []
      decide
    · show ∀ c ∈ ("class" : String).data, attrNameChar c = true
      decide
    · show strToLower "class" = "class"
      decide
    intro c hcc
    exact classJoin_safe cls
      (fun t ht => (goodToken_facts t ((clsCanonical_facts cls hc).1 t ht)).2.2) c hcc
  · rcases List.mem_map.mp hm with ⟨kv0, hkv0, hmap⟩
    obtain ⟨v, hval, hkey, hsafe⟩ := goodAttr_facts kv0 (hrest kv0 hkv0)
    obtain ⟨hne, hchar, hlow, _⟩ := goodKey_facts kv0.1 hkey
    subst hmap
    refine ⟨hne, hchar, hlow, ?_⟩
    rw [hval]
    exact hsafe

theorem emitAttrs_stop (pairs : List (String × String)) (suffix : List Char) :
    (pairs.flatMap emitAttr ++ '>' :: suffix).takeWhile tagNameChar = [] ∧
    (pairs.flatMap emitAttr ++ '>' :: suffix).dropWhile tagNameChar =
      pairs.flatMap emitAttr ++ '>' :: suffix := by
  cases pairs with
  | nil =>
    rw [List.flatMap_nil, List.nil_append]
    exact ⟨takeWhile_cons_neg _ _ _ (by decide),
      dropWhile_cons_neg _ _ _ (by decide)⟩
  | cons p ps =>
    have hshape : (p :: ps).flatMap emitAttr ++ '>' :: suffix =
        ' ' :: (p.1.data ++ ('=' :: '"' :: (escape_attrib_html p.2.data ++ '"' ::
          (ps.flatMap emitAttr ++ '>' :: suffix)))) := by
      rw [List.flatMap_cons, show emitAttr p = (' ' :: p.1.data) ++
        ('=' :: '"' :: escape_attrib_html p.2.data) ++ ['"'] from rfl]
      simp only [List.append_assoc, List.cons_append, List.singleton_append,
        List.nil_append]
    rw [hshape]
    exact ⟨takeWhile_cons_neg _ _ _ (by decide),
      dropWhile_cons_neg _ _ _ (by decide)⟩

theorem scanStartTag_emit (n : String) (nc : Char) (ntail : List Char)
    (pairs : List (String × String)) (suffix : List Char)
    (hdata : n.data = nc :: ntail) (hlow : strToLower n = n)
    (htag : ∀ x ∈ ntail, tagNameChar x = true)
    (hpairs : ∀ kv ∈ pairs, kv.1.data ≠ [] ∧
      (∀ c ∈ kv.1.data, attrNameChar c = true) ∧ strToLower kv.1 = kv.1 ∧
      (∀ c ∈ kv.2.data, safeTextChar c = true)) :
    scanStartTag nc (ntail ++ (pairs.flatMap emitAttr ++ '>' :: suffix)) =
      (some (.startTag n pairs false), suffix) := by
  obtain ⟨hstop1, hstop2⟩ := emitAttrs_stop pairs suffix
  have htw : (ntail ++ (pairs.flatMap emitAttr ++ '>' ::
      suffix)).takeWhile tagNameChar = ntail := by
    rw [takeWhile_append_all tagNameChar ntail _ htag, hstop1, List.append_nil]
  have hdw : (ntail ++ (pairs.flatMap emitAttr ++ '>' ::
      suffix)).dropWhile tagNameChar = pairs.flatMap emitAttr ++ '>' :: suffix := by
    rw [dropWhile_append_all tagNameChar ntail _ htag, hstop2]
  have hpa : parseAttrs (pairs.flatMap emitAttr ++ '>' :: suffix) [] =
      (pairs, .gt, suffix) := by
    rw [show parseAttrs (pairs.flatMap emitAttr ++ '>' :: suffix) [] =
      parseAttrsF (pairs.flatMap emitAttr ++ '>' :: suffix).length
        (pairs.flatMap emitAttr ++ '>' :: suffix) [] from rfl]
    rw [parseAttrsF_emit pairs _ suffix [] hpairs (by
      simp only [List.length_append, List.length_cons]
      omega)]
    rw [List.reverse_nil, List.nil_append]
  rw [scanStartTag, htw, hdw, hpa]
  rw [show (⟨nc :: ntail⟩ : String) = n from by rw [← hdata]]
  rw [hlow]

theorem goodText_facts (s : String) (h : goodText s = true) :
    s.data ≠ [] ∧ ∀ c ∈ s.data, safeTextChar c = true := by
  rw [goodText, Bool.and_eq_true, Bool.not_eq_true'] at h
  exact ⟨isEmpty_false_data s h.1, fun c hc => List.all_eq_true.mp h.2 c hc⟩

/-- The tokenizer reads the serialized children back as their token stream:
processing the serialization of well-formed children followed by any
remainder that is empty or starts another tag yields the children's tokens
and continues on the remainder (with fuel to spare). -/
theorem tokenizeF_emitChildren (k : Nat) : ∀ (cs : List Node) (rest : List Char)
    (f : Nat), childSize cs ≤ k → wfChildren cs = true →
    (rest = [] ∨ rest.head? = some '<') →
    (emitChildren cs ++ rest).length ≤ f →
    ∃ f', rest.length ≤ f' ∧
      tokenizeF f (emitChildren cs ++ rest) = childTokens cs ++ tokenizeF f' rest := by
  induction k with
  | zero =>
    intro cs rest f hk hwf hrest hf
    cases cs with
    | nil =>
      refine ⟨f, by
        rw [show emitChildren [] = ([] : List Char) from rfl,
          List.nil_append] at hf
        exact hf, ?_⟩
      rw [show emitChildren [] = ([] : List Char) from rfl, List.nil_append,
        show childTokens [] = ([] : List Token) from rfl, List.nil_append]
    | cons c cs2 =>
      have h1 := nodeSize_pos c
      rw [show childSize (c :: cs2) = nodeSize c + childSize cs2 from rfl] at hk
      omega
  | succ k ih =>
    intro cs rest f hk hwf hrest hf
    cases cs with
    | nil =>
      refine ⟨f, by
        rw [show emitChildren [] = ([] : List Char) from rfl,
          List.nil_append] at hf
        exact hf, ?_⟩
      rw [show emitChildren [] = ([] : List Char) from rfl, List.nil_append,
        show childTokens [] = ([] : List Token) from rfl, List.nil_append]
    | cons c cs2 =>
      rw [show childSize (c :: cs2) = nodeSize c + childSize cs2 from rfl] at hk
      cases c with
      | str s =>
        rw [show wfChildren (.str s :: cs2) =
          (goodText s && headNotStr cs2 && wfChildren cs2) from rfl,
          Bool.and_eq_true, Bool.and_eq_true] at hwf
        obtain ⟨⟨hgt, hhn⟩, hwf2⟩ := hwf
        obtain ⟨hsne, hsafe⟩ := goodText_facts s hgt
        have hsOK := emitChildren_head cs2 rest hhn hrest
        have hemit : emitChildren (.str s :: cs2) ++ rest =
            s.data ++ (emitChildren cs2 ++ rest) := by
          rw [show emitChildren (.str s :: cs2) =
            emitNode (.str s) ++ emitChildren cs2 from rfl,
            show emitNode (.str s) = escape_cdata s.data from rfl,
            escape_cdata_id s.data hsafe, List.append_assoc]
        rw [hemit] at hf ⊢
        have htw : (emitChildren cs2 ++ rest).takeWhile (fun x => !(x = '<')) = [] ∧
            (emitChildren cs2 ++ rest).dropWhile (fun x => !(x = '<')) =
              emitChildren cs2 ++ rest := by
          rcases hsOK with hnil | hhd
          · rw [hnil]
            exact ⟨rfl, rfl⟩
          · cases hsuf : emitChildren cs2 ++ rest with
            | nil => exact ⟨rfl, rfl⟩
            | cons y ys =>
              rw [hsuf] at hhd
              simp only [List.head?_cons, Option.some_inj] at hhd
              subst hhd
              exact ⟨takeWhile_cons_neg _ _ _ (by decide),
                dropWhile_cons_neg _ _ _ (by decide)⟩
        cases hsd : s.data with
        | nil => exact absurd hsd hsne
        | cons c0 st =>
          cases f with
          | zero =>
            rw [hsd] at hf
            simp only [List.length_append, List.length_cons] at hf
            omega
          | succ f1 =>
            rw [List.cons_append, tokenizeF.eq_def]
            dsimp only
            rw [if_neg (safeTextChar_facts c0
              (hsafe c0 (hsd ▸ List.mem_cons_self c0 st))).2.1]
            have hstp : ∀ x ∈ st, (fun x => !(x = '<')) x = true := by
              intro x hx
              have hxe := (safeTextChar_facts x
                (hsafe x (hsd ▸ List.mem_cons_of_mem c0 hx))).2.1
              simp [hxe]
            have e1 : (st ++ (emitChildren cs2 ++ rest)).takeWhile
                (fun x => !(x = '<')) = st := by
              rw [takeWhile_append_all _ st _ hstp, htw.1, List.append_nil]
            have e2 : (st ++ (emitChildren cs2 ++ rest)).dropWhile
                (fun x => !(x = '<')) = emitChildren cs2 ++ rest := by
              rw [dropWhile_append_all _ st _ hstp, htw.2]
            rw [e1, e2]
            rw [show unescapeChars (c0 :: st) = c0 :: st from
              unescapeChars_safe (c0 :: st) (by rw [← hsd]; exact hsafe)]
            rw [show (⟨c0 :: st⟩ : String) = s from by rw [← hsd]]
            obtain ⟨f', hf', heq⟩ := ih cs2 rest f1 (by
                have := nodeSize_pos (.str s)
                omega)
              hwf2 hrest (by
                rw [hsd] at hf
                simp only [List.length_append, List.length_cons] at hf ⊢
                omega)
            refine ⟨f', hf', ?_⟩
            rw [heq]
            rw [show childTokens (.str s :: cs2) =
              .dataTok s :: childTokens cs2 from rfl, List.cons_append]
      | elem n a ckids =>
        rw [show wfChildren (.elem n a ckids :: cs2) =
          (wfNode (.elem n a ckids) && wfChildren cs2) from rfl,
          Bool.and_eq_true] at hwf
        obtain ⟨hwfn, hwf2⟩ := hwf
        rw [wfNode] at hwfn
        cases hsub : subclasses n with
        | none =>
          rw [hsub] at hwfn
          cases hwfn
        | some ty =>
          rw [hsub] at hwfn
          simp only [Bool.and_eq_true, Bool.not_eq_true',
            decide_eq_false_iff_not] at hwfn
          obtain ⟨⟨⟨⟨⟨hne, hnsc⟩, hnst⟩, hattrs⟩, hvoid⟩, hwfc⟩ := hwfn
          have hreg := registered_good n ty hsub hne
          obtain ⟨c0, nt0, hndata, halpha, htag, hend, hlow⟩ :=
            goodTagName_facts n hreg.1
          have hgood := serializeAttrs_good a hattrs
          have hns2 : ¬(strToLower n = "script" ∨ strToLower n = "style") := by
            rw [hlow]
            rintro (hcon | hcon)
            exacts [hnsc hcon, hnst hcon]
          have hemit : emitChildren (.elem n a ckids :: cs2) ++ rest =
              '<' :: (n.data ++ ((serializeAttrs a).flatMap emitAttr ++ '>' ::
                (emitChildren ckids ++
                  ((if HTML_EMPTY.contains (strToLower n) then []
                    else '<' :: '/' :: n.data ++ ['>']) ++
                    (emitChildren cs2 ++ rest))))) := by
            rw [show emitChildren (.elem n a ckids :: cs2) =
              emitNode (.elem n a ckids) ++ emitChildren cs2 from rfl]
            rw [emitNode, if_neg hns2]
            split
            · simp only [List.append_assoc, List.cons_append, List.singleton_append,
                List.nil_append, List.append_nil]
            · simp only [List.append_assoc, List.cons_append, List.singleton_append,
                List.nil_append]
          rw [hemit] at hf ⊢
          cases f with
          | zero =>
            simp only [List.length_cons] at hf
            omega
          | succ f1 =>
            rw [tokenizeF.eq_def]
            dsimp only
            rw [if_pos (show ('<' : Char) = '<' from rfl)]
            rw [hndata, List.cons_append]
            split
            · rename_i rest' heq
              rw [List.cons_eq_cons] at heq
              have : c0 = '/' := heq.1
              rw [this] at halpha
              exact absurd halpha (by decide)
            · rename_i c' rest' heq
              rw [List.cons_eq_cons] at heq
              obtain ⟨hc', hrest'⟩ := heq
              subst hc'
              subst hrest'
              rw [if_pos halpha]
              rw [scanStartTag_emit n c0 nt0 (serializeAttrs a) _ hndata hlow
                htag hgood]
              dsimp only
              simp only [List.length_cons, List.length_append] at hf
              by_cases hv : HTML_EMPTY.contains (strToLower n) = true
              · have hckids : ckids = [] := by
                  rw [hlow] at hv
                  rw [hreg.2] at hv
                  rw [hv] at hvoid
                  simp only [Bool.not_true, Bool.false_or] at hvoid
                  exact List.isEmpty_iff.mp hvoid
                subst hckids
                rw [if_pos hv] at hf ⊢
                rw [show emitChildren [] = ([] : List Char) from rfl] at hf ⊢
                rw [List.nil_append, List.nil_append]
                obtain ⟨f', hf', heq⟩ := ih cs2 rest f1 (by
                    rw [show nodeSize (.elem n a []) = childSize [] + 1 from rfl]
                      at hk
                    omega)
                  hwf2 hrest (by
                    simp only [List.length_append, List.length_nil] at hf ⊢
                    omega)
                refine ⟨f', hf', ?_⟩
                rw [heq]
                rw [show childTokens (.elem n a [] :: cs2) =
                  nodeTokens (.elem n a []) ++ childTokens cs2 from rfl]
                rw [nodeTokens, if_pos hv]
                rw [show childTokens [] = ([] : List Token) from rfl]
                simp
              · rw [if_neg hv] at hf ⊢
                have hclose : ('<' :: '/' :: c0 :: nt0 ++ ['>']) ++
                    (emitChildren cs2 ++ rest) =
                    '<' :: '/' :: (n.data ++ '>' :: (emitChildren cs2 ++ rest)) := by
                  rw [hndata]
                  simp only [List.append_assoc, List.cons_append,
                    List.singleton_append, List.nil_append]
                rw [hclose]
                obtain ⟨f2, hf2, heq2⟩ := ih ckids
                  ('<' :: '/' :: (n.data ++ '>' :: (emitChildren cs2 ++ rest))) f1
                  (by
                    rw [show nodeSize (.elem n a ckids) = childSize ckids + 1
                      from rfl] at hk
                    omega)
                  hwfc (Or.inr rfl) (by
                    simp only [List.length_append, List.length_cons] at hf ⊢
                    omega)
                rw [heq2]
                simp only [List.length_cons, List.length_append] at hf2
                cases f2 with
                | zero => omega
                | succ f3 =>
                  rw [tokenizeF.eq_def]
                  dsimp only
                  rw [if_pos (show ('<' : Char) = '<' from rfl)]
                  split
                  rotate_left
                  · rename_i c' rest' hgu heq
                    rw [List.cons_eq_cons] at heq
                    exact absurd heq.1.symm hgu
                  · rename_i heq
                    cases heq
                  rename_i rest' heq
                  rw [List.cons_eq_cons] at heq
                  have hre : rest' = n.data ++ '>' :: (emitChildren cs2 ++ rest) :=
                    heq.2.symm
                  subst hre
                  rw [scanEndTag_emit n _ hreg.1]
                  dsimp only
                  obtain ⟨f', hf', heq⟩ := ih cs2 rest f3 (by
                      have := nodeSize_pos (.elem n a ckids)
                      omega)
                    hwf2 hrest (by
                      simp only [List.length_append] at hf2 ⊢
                      omega)
                  refine ⟨f', hf', ?_⟩
                  rw [heq]
                  rw [show childTokens (.elem n a ckids :: cs2) =
                    nodeTokens (.elem n a ckids) ++ childTokens cs2 from rfl]
                  rw [nodeTokens, if_neg hv]
                  simp
            · rename_i heq
              cases heq

theorem tokenizeF_nil (f : Nat) : tokenizeF f [] = [] := by
  cases f with
  | zero => rfl
  | succ g => rfl

/-- `HTMLParser` turns the serializer's output back into exactly the token
stream of the tree. -/
theorem tokenize_emitChildren (cs : List Node) (hwf : wfChildren cs = true) :
    tokenize (emitChildren cs) = childTokens cs := by
  obtain ⟨f', _, heq⟩ := tokenizeF_emitChildren (childSize cs) cs []
    (emitChildren cs ++ []).length (Nat.le_refl _) hwf (Or.inl rfl) (Nat.le_refl _)
  rw [tokenizeF_nil, List.append_nil] at heq
  rw [List.append_nil] at heq
  exact heq

/-! ### Parsing the token stream back into the tree -/

theorem dict_lookup_append {α : Type} (k : String) (d1 d2 : List (String × α)) :
    dict_lookup k (d1 ++ d2) =
      match dict_lookup k d1 with
      | some v => some v
      | none => dict_lookup k d2 := by
  induction d1 with
  | nil => rfl
  | cons kv d ih =>
    rw [List.cons_append, dict_lookup, dict_lookup]
    by_cases hk : kv.1 = k
    · rw [if_pos hk, if_pos hk]
    · rw [if_neg hk, if_neg hk, ih]

theorem dict_contains_append_false {α : Type} (k : String)
    (d1 d2 : List (String × α)) (h1 : dict_contains k d1 = false)
    (h2 : dict_contains k d2 = false) : dict_contains k (d1 ++ d2) = false := by
  rw [dict_contains, dict_lookup_append]
  rw [dict_contains] at h1 h2
  cases hl : dict_lookup k d1 with
  | none =>
    rw [hl] at h1
    cases hl2 : dict_lookup k d2 with
    | none => rfl
    | some v =>
      rw [hl2] at h2
      cases h2
  | some v =>
    rw [hl] at h1
    cases h1

theorem dict_contains_not_mem {α : Type} (k : String) (d : List (String × α))
    (h : k ∉ d.map Prod.fst) : dict_contains k d = false := by
  rw [dict_contains, dict_lookup_none_of_not_mem k d h]
  rfl

theorem dict_set_fresh_append {α : Type} (d : List (String × α)) (k : String)
    (v : α) (h : dict_contains k d = false) : dict_set d k v = d ++ [(k, v)] := by
  induction d with
  | nil => rfl
  | cons kv rest ih =>
    rw [dict_contains, dict_lookup] at h
    by_cases hk : kv.1 = k
    · rw [if_pos hk] at h
      cases h
    · rw [if_neg hk] at h
      rw [dict_set, if_neg hk, List.cons_append, ih h]

theorem foldl_dict_set_fresh {α : Type} : ∀ (l : List (String × α))
    (d : List (String × α)),
    (∀ kv ∈ l, dict_contains kv.1 d = false) → (l.map Prod.fst).Nodup →
    l.foldl (fun d kv => dict_set d kv.1 kv.2) d = d ++ l := by
  intro l
  induction l with
  | nil => intro d _ _; rw [List.foldl_nil, List.append_nil]
  | cons kv rest ih =>
    intro d hfresh hnd
    rw [List.map_cons, List.nodup_cons] at hnd
    rw [List.foldl_cons,
      dict_set_fresh_append d kv.1 kv.2 (hfresh kv (List.mem_cons_self kv rest))]
    rw [ih (d ++ [(kv.1, kv.2)]) (fun kv2 hm => by
        refine dict_contains_append_false kv2.1 d [(kv.1, kv.2)]
          (hfresh kv2 (List.mem_cons_of_mem kv hm)) ?_
        have hx : ¬kv.1 = kv2.1 := fun hc =>
          hnd.1 (by rw [hc]; exact List.mem_map_of_mem Prod.fst hm)
        rw [dict_contains, dict_lookup, if_neg hx]
        rfl)
      hnd.2]
    rw [List.append_assoc]
    rfl

theorem foldl_dict_set_map {α : Type} (f : String → String) :
    ∀ (l : List (String × α)) (d : List (String × α)),
    l.foldl (fun d kv => dict_set d (f kv.1) kv.2) d =
      (l.map fun kv => (f kv.1, kv.2)).foldl (fun d kv => dict_set d kv.1 kv.2) d := by
  intro l
  induction l with
  | nil => intro d; rfl
  | cons kv rest ih =>
    intro d
    rw [List.foldl_cons, List.map_cons, List.foldl_cons, ih]

/-- `open_tag`'s attribute pipeline — canonicalize names into a dict, apply
`parse_funcs`, merge into `default_attributes()` — exactly reconstructs the
well-formed attribute dict the serializer started from. -/
theorem parsed_roundtrip (a : List (String × AttrValue)) (hattrs : attrsOK a = true) :
    dict_update default_attributes
      (((serializeAttrs a).foldl (fun d kv =>
        dict_set d (html_name_to_python kv.1) kv.2) []).map fun kv =>
          if kv.1 = "_class" then (kv.1, parse__class kv.2)
          else (kv.1, AttrValue.str kv.2)) = a := by
  obtain ⟨cls, rest, ha, hc, hrest, hnd⟩ := attrsOK_facts a hattrs
  subst ha
  rw [List.nodup_cons] at hnd
  have hncl : ∀ kv ∈ rest, ¬kv.1 = "_class" := by
    intro kv hm hce
    apply hnd.1
    rw [← hce]
    exact List.mem_map_of_mem Prod.fst hm
  rw [serializeAttrs_shape cls rest hc hrest hncl]
  rw [foldl_dict_set_map]
  have hmap1 : ((if cls.isEmpty then [] else
      [("class", (⟨classJoin cls⟩ : String))]) ++
      rest.map fun kv => (python_name_to_html kv.1, pyStrAttrValue kv.2)).map
      (fun kv => (html_name_to_python kv.1, kv.2)) =
      (if cls.isEmpty then [] else [("_class", (⟨classJoin cls⟩ : String))]) ++
      rest.map fun kv => (kv.1, pyStrAttrValue kv.2) := by
    rw [List.map_append]
    congr 1
    · split
      · rfl
      · rfl
    · rw [List.map_map]
      refine List.map_congr_left ?_
      intro kv hm
      obtain ⟨v, hval, hkey, _⟩ := goodAttr_facts kv (hrest kv hm)
      have h4 := (goodKey_facts kv.1 hkey).2.2.2
      simp only [Function.comp]
      rw [h4]
  rw [hmap1]
  have hkeys2 : (rest.map fun kv => (kv.1, pyStrAttrValue kv.2)).map Prod.fst =
      rest.map Prod.fst := by
    rw [List.map_map]
    refine List.map_congr_left ?_
    intro kv _
    rfl
  have hkeysnd : (((if cls.isEmpty then [] else
      [("_class", (⟨classJoin cls⟩ : String))]) ++
      rest.map fun kv => (kv.1, pyStrAttrValue kv.2)).map Prod.fst).Nodup := by
    rw [List.map_append, hkeys2]
    split
    · simp only [List.map_nil, List.nil_append]
      exact hnd.2
    · simp only [List.map_cons, List.map_nil, List.singleton_append,
        List.nodup_cons]
      exact ⟨hnd.1, hnd.2⟩
  rw [foldl_dict_set_fresh _ [] (fun kv _ => rfl) hkeysnd, List.nil_append]
  have hmap2 : ((if cls.isEmpty then [] else
      [("_class", (⟨classJoin cls⟩ : String))]) ++
      rest.map fun kv => (kv.1, pyStrAttrValue kv.2)).map
      (fun kv => if kv.1 = "_class" then (kv.1, parse__class kv.2)
        else (kv.1, AttrValue.str kv.2)) =
      (if cls.isEmpty then [] else [("_class", AttrValue.strSet cls)]) ++ rest := by
    rw [List.map_append]
    congr 1
    · split
      · rfl
      · simp only [List.map_cons, List.map_nil, if_true]
        rw [show parse__class (⟨classJoin cls⟩ : String) =
          AttrValue.strSet (pySplitWs (classJoin cls)) from rfl]
        rw [pySplitWs_classJoin cls
          (List.all_eq_true.mpr (clsCanonical_facts cls hc).1)]
    · rw [List.map_map]
      have hid : rest.map ((fun kv =>
          if kv.1 = "_class" then (kv.1, parse__class kv.2)
          else (kv.1, AttrValue.str kv.2)) ∘
          fun kv => (kv.1, pyStrAttrValue kv.2)) = rest.map id := by
        refine List.map_congr_left ?_
        intro kv hm
        obtain ⟨v, hval, _, _⟩ := goodAttr_facts kv (hrest kv hm)
        simp only [Function.comp, id]
        rw [if_neg (hncl kv hm)]
        show (kv.1, AttrValue.str (pyStrAttrValue kv.2)) = kv
        rw [hval]
        show (kv.1, AttrValue.str v) = kv
        rw [← hval]
      rw [hid, List.map_id]
  rw [hmap2]
  by_cases he : cls.isEmpty = true
  · rw [if_pos he, List.nil_append]
    rw [default_update_fresh rest (dict_contains_not_mem _ _ hnd.1) hnd.2]
    rw [List.isEmpty_iff.mp he]
  · rw [if_neg he, List.singleton_append]
    rw [dict_update_cons_upd]
    rw [show dict_set default_attributes ("_class", AttrValue.strSet cls).1
      ("_class", AttrValue.strSet cls).2 = [("_class", AttrValue.strSet cls)]
      from rfl]
    rw [dict_update_cons_notin _ _ [] rest hncl]
    rw [dict_update_nil_nodup rest hnd.2]

/-- `open_tag` on a start tag the serializer emitted: rebuild the element's
exact attribute dict, then add a completed void element to the stack top or
push a frame for the element. -/
theorem open_tag_emit (fr : Frame) (stk : List Frame) (rd : Option Node)
    (n : String) (a : List (String × AttrValue)) (ty : NodeType)
    (hsub : subclasses n = some ty) (hattrs : attrsOK a = true) :
    open_tag ⟨fr :: stk, rd⟩ n (serializeAttrs a) false =
      if ty.void then .ok ⟨frameAddChild fr (.elem n a []) :: stk, rd⟩
      else .ok ⟨(⟨n, a, []⟩ : Frame) :: fr :: stk, rd⟩ := by
  rw [open_tag, hsub]
  dsimp only
  rw [parsed_roundtrip a hattrs]
  by_cases hv : ty.void = true
  · rw [if_pos hv]
    rw [if_pos (show (ty.void || false) = true from by rw [hv]; rfl)]
    rfl
  · rw [if_neg hv]
    rw [if_neg (show ¬(ty.void || false) = true from by
      rw [Bool.or_false]
      exact hv)]

/-- Feeding the token stream of well-formed children to the parser appends
exactly those children to the frame on top of the stack. -/
theorem feedTokens_childTokens (k : Nat) : ∀ (cs : List Node) (fr : Frame)
    (stk : List Frame) (rd : Option Node) (more : List Token),
    childSize cs ≤ k → wfChildren cs = true →
    feedTokens ⟨fr :: stk, rd⟩ (childTokens cs ++ more) =
      feedTokens ⟨⟨fr.name, fr.attributes, fr.children ++ cs⟩ :: stk, rd⟩ more := by
  induction k with
  | zero =>
    intro cs fr stk rd more hk hwf
    cases cs with
    | nil =>
      rw [show childTokens [] = ([] : List Token) from rfl, List.nil_append,
        List.append_nil]
    | cons c cs2 =>
      have h1 := nodeSize_pos c
      rw [show childSize (c :: cs2) = nodeSize c + childSize cs2 from rfl] at hk
      omega
  | succ k ih =>
    intro cs fr stk rd more hk hwf
    cases cs with
    | nil =>
      rw [show childTokens [] = ([] : List Token) from rfl, List.nil_append,
        List.append_nil]
    | cons c cs2 =>
      rw [show childSize (c :: cs2) = nodeSize c + childSize cs2 from rfl] at hk
      cases c with
      | str s =>
        rw [show wfChildren (.str s :: cs2) =
          (goodText s && headNotStr cs2 && wfChildren cs2) from rfl,
          Bool.and_eq_true, Bool.and_eq_true] at hwf
        obtain ⟨⟨hgt, hhn⟩, hwf2⟩ := hwf
        rw [show childTokens (.str s :: cs2) = .dataTok s :: childTokens cs2
          from rfl, List.cons_append]
        rw [feedTokens]
        rw [show feedToken ⟨fr :: stk, rd⟩ (.dataTok s) =
          Except.ok ⟨frameAddChild fr (.str s) :: stk, rd⟩ from rfl]
        dsimp only
        rw [ih cs2 (frameAddChild fr (.str s)) stk rd more (by
            have h1 : nodeSize (.str s) = 1 := rfl
            omega)
          hwf2]
        have hfr : (⟨(frameAddChild fr (.str s)).name,
            (frameAddChild fr (.str s)).attributes,
            (frameAddChild fr (.str s)).children ++ cs2⟩ : Frame) =
            ⟨fr.name, fr.attributes, fr.children ++ (.str s :: cs2)⟩ := by
          show (⟨fr.name, fr.attributes, (fr.children ++ [.str s]) ++ cs2⟩ :
            Frame) = _
          rw [List.append_assoc]
          rfl
        rw [hfr]
      | elem n a ckids =>
        rw [show wfChildren (.elem n a ckids :: cs2) =
          (wfNode (.elem n a ckids) && wfChildren cs2) from rfl,
          Bool.and_eq_true] at hwf
        obtain ⟨hwfn, hwf2⟩ := hwf
        rw [wfNode] at hwfn
        cases hsub : subclasses n with
        | none =>
          rw [hsub] at hwfn
          cases hwfn
        | some ty =>
          rw [hsub] at hwfn
          simp only [Bool.and_eq_true, Bool.not_eq_true',
            decide_eq_false_iff_not] at hwfn
          obtain ⟨⟨⟨⟨⟨hne, hnsc⟩, hnst⟩, hattrs⟩, hvoid⟩, hwfc⟩ := hwfn
          have hreg := registered_good n ty hsub hne
          have hlow := subclasses_lower n ty hsub
          have hcontains : HTML_EMPTY.contains (strToLower n) = ty.void := by
            rw [hlow]
            exact hreg.2
          rw [show childTokens (.elem n a ckids :: cs2) =
            nodeTokens (.elem n a ckids) ++ childTokens cs2 from rfl]
          rw [nodeTokens]
          by_cases hv : ty.void = true
          · have hckids : ckids = [] := by
              rw [hv] at hvoid
              simp only [Bool.not_true, Bool.false_or] at hvoid
              exact List.isEmpty_iff.mp hvoid
            subst hckids
            rw [if_pos (hcontains.trans hv)]
            rw [show childTokens [] = ([] : List Token) from rfl]
            simp only [List.append_nil, List.nil_append, List.cons_append]
            rw [feedTokens]
            rw [show feedToken ⟨fr :: stk, rd⟩
              (.startTag n (serializeAttrs a) false) =
              open_tag ⟨fr :: stk, rd⟩ n (serializeAttrs a) false from rfl]
            rw [open_tag_emit fr stk rd n a ty hsub hattrs, if_pos hv]
            dsimp only
            rw [ih cs2 (frameAddChild fr (.elem n a [])) stk rd more (by
                have h1 : nodeSize (.elem n a []) = childSize [] + 1 := rfl
                have h2 : childSize ([] : List Node) = 0 := rfl
                omega)
              hwf2]
            have hfr : (⟨(frameAddChild fr (.elem n a [])).name,
                (frameAddChild fr (.elem n a [])).attributes,
                (frameAddChild fr (.elem n a [])).children ++ cs2⟩ : Frame) =
                ⟨fr.name, fr.attributes, fr.children ++ (.elem n a [] :: cs2)⟩ := by
              show (⟨fr.name, fr.attributes,
                (fr.children ++ [.elem n a []]) ++ cs2⟩ : Frame) = _
              rw [List.append_assoc]
              rfl
            rw [hfr]
          · rw [if_neg (by rw [hcontains]; exact hv)]
            simp only [List.cons_append, List.append_assoc, List.singleton_append,
              List.nil_append]
            rw [feedTokens]
            rw [show feedToken ⟨fr :: stk, rd⟩
              (.startTag n (serializeAttrs a) false) =
              open_tag ⟨fr :: stk, rd⟩ n (serializeAttrs a) false from rfl]
            rw [open_tag_emit fr stk rd n a ty hsub hattrs, if_neg hv]
            dsimp only
            rw [ih ckids ⟨n, a, []⟩ (fr :: stk) rd
              (.endTag n :: (childTokens cs2 ++ more)) (by
                have h1 : nodeSize (.elem n a ckids) = childSize ckids + 1 := rfl
                omega)
              hwfc]
            dsimp only
            rw [List.nil_append]
            rw [feedTokens]
            rw [show feedToken ⟨(⟨n, a, ckids⟩ : Frame) :: fr :: stk, rd⟩
              (.endTag n) =
              Except.ok ⟨frameAddChild fr (.elem n a ckids) :: stk, rd⟩ from by
                rw [show feedToken ⟨(⟨n, a, ckids⟩ : Frame) :: fr :: stk, rd⟩
                  (.endTag n) = handle_endtag
                    ⟨(⟨n, a, ckids⟩ : Frame) :: fr :: stk, rd⟩ n from rfl]
                rw [handle_endtag]
                dsimp only
                rw [if_pos rfl]
                rfl]
            dsimp only
            rw [ih cs2 (frameAddChild fr (.elem n a ckids)) stk rd more (by
                have h1 : nodeSize (.elem n a ckids) = childSize ckids + 1 := rfl
                omega)
              hwf2]
            have hfr : (⟨(frameAddChild fr (.elem n a ckids)).name,
                (frameAddChild fr (.elem n a ckids)).attributes,
                (frameAddChild fr (.elem n a ckids)).children ++ cs2⟩ : Frame) =
                ⟨fr.name, fr.attributes,
                  fr.children ++ (.elem n a ckids :: cs2)⟩ := by
              show (⟨fr.name, fr.attributes,
                (fr.children ++ [.elem n a ckids]) ++ cs2⟩ : Frame) = _
              rw [List.append_assoc]
              rfl
            rw [hfr]

/-! ### Normalization and render fix well-formed trees -/

theorem wfChildren_cons_facts (c : Node) (cs2 : List Node)
    (h : wfChildren (c :: cs2) = true) : wfChildren cs2 = true := by
  cases c with
  | str s =>
    rw [show wfChildren (.str s :: cs2) =
      (goodText s && headNotStr cs2 && wfChildren cs2) from rfl,
      Bool.and_eq_true] at h
    exact h.2
  | elem n a k =>
    rw [show wfChildren (.elem n a k :: cs2) =
      (wfNode (.elem n a k) && wfChildren cs2) from rfl, Bool.and_eq_true] at h
    exact h.2

theorem wfNode_elem_facts (n : String) (a : List (String × AttrValue))
    (c : List Node) (h : wfNode (.elem n a c) = true) :
    ∃ ty, subclasses n = some ty ∧ ¬n = "" ∧ attrsOK a = true ∧
      wfChildren c = true := by
  rw [wfNode] at h
  cases hsub : subclasses n with
  | none =>
    rw [hsub] at h
    cases h
  | some ty =>
    rw [hsub] at h
    simp only [Bool.and_eq_true, Bool.not_eq_true',
      decide_eq_false_iff_not] at h
    exact ⟨ty, rfl, h.1.1.1.1.1, h.1.1.2, h.2⟩

theorem flattenFrag_fixpoint : ∀ (cs : List Node), wfChildren cs = true →
    flattenFrag cs = cs := by
  intro cs
  induction cs with
  | nil => intro _; rfl
  | cons c cs2 ih =>
    intro hwf
    have hwf2 := wfChildren_cons_facts c cs2 hwf
    rw [flattenFrag, List.flatMap_cons]
    rw [show (cs2.flatMap fun c =>
      match c with
      | .elem "" _ cs => cs
      | c => [c]) = flattenFrag cs2 from rfl, ih hwf2]
    cases c with
    | str s => rfl
    | elem n a k =>
      rw [show wfChildren (.elem n a k :: cs2) =
        (wfNode (.elem n a k) && wfChildren cs2) from rfl,
        Bool.and_eq_true] at hwf
      obtain ⟨ty, _, hne, _, _⟩ := wfNode_elem_facts n a k hwf.1
      split
      · rename_i a2 k2 heq
        rw [Node.elem.injEq] at heq
        exact absurd heq.1 hne
      · rfl

theorem dropEmptyStrs_fixpoint : ∀ (cs : List Node), wfChildren cs = true →
    dropEmptyStrs cs = cs := by
  intro cs
  induction cs with
  | nil => intro _; rfl
  | cons c cs2 ih =>
    intro hwf
    have hwf2 := wfChildren_cons_facts c cs2 hwf
    rw [dropEmptyStrs, List.filter_cons]
    rw [show (cs2.filter fun c =>
      match c with
      | .str s => !(s == "")
      | _ => true) = dropEmptyStrs cs2 from rfl, ih hwf2]
    cases c with
    | elem n a k => rw [if_pos rfl]
    | str s =>
      rw [show wfChildren (.str s :: cs2) =
        (goodText s && headNotStr cs2 && wfChildren cs2) from rfl,
        Bool.and_eq_true, Bool.and_eq_true] at hwf
      obtain ⟨hne, _⟩ := goodText_facts s hwf.1.1
      have hsne : ¬s = "" := by
        intro hc
        apply hne
        rw [hc]
      rw [if_pos (by
        simp only [beq_eq_false_iff_ne, ne_eq, Bool.not_eq_true']
        exact hsne)]

theorem concatAdjacentStrs_fixpoint : ∀ (cs : List Node),
    wfChildren cs = true → concatAdjacentStrs cs = cs := by
  intro cs
  induction cs with
  | nil => intro _; rfl
  | cons c cs2 ih =>
    intro hwf
    have hwf2 := wfChildren_cons_facts c cs2 hwf
    cases c with
    | elem n a k =>
      rw [show concatAdjacentStrs (.elem n a k :: cs2) =
        .elem n a k :: concatAdjacentStrs cs2 from rfl, ih hwf2]
    | str s =>
      rw [show wfChildren (.str s :: cs2) =
        (goodText s && headNotStr cs2 && wfChildren cs2) from rfl,
        Bool.and_eq_true, Bool.and_eq_true] at hwf
      rw [show concatAdjacentStrs (.str s :: cs2) =
        strCons s (concatAdjacentStrs cs2) from rfl, ih hwf2]
      cases cs2 with
      | nil => rfl
      | cons c2 r2 =>
        cases c2 with
        | str s2 => cases hwf.1.2
        | elem n2 a2 k2 => rfl

theorem shallowNormChildren_fixpoint (cs : List Node)
    (hwf : wfChildren cs = true) : shallowNormChildren cs = cs := by
  rw [shallowNormChildren_eq, flattenFrag_fixpoint cs hwf,
    dropEmptyStrs_fixpoint cs hwf, concatAdjacentStrs_fixpoint cs hwf]

theorem dict_update_default_attrsOK (a : List (String × AttrValue))
    (hattrs : attrsOK a = true) : dict_update default_attributes a = a := by
  obtain ⟨cls, rest, ha, _, _, hnd⟩ := attrsOK_facts a hattrs
  subst ha
  rw [List.nodup_cons] at hnd
  have hncl : ∀ kv ∈ rest, ¬kv.1 = "_class" := by
    intro kv hm hce
    apply hnd.1
    rw [← hce]
    exact List.mem_map_of_mem Prod.fst hm
  rw [dict_update_cons_upd]
  rw [show dict_set default_attributes ("_class", AttrValue.strSet cls).1
    ("_class", AttrValue.strSet cls).2 = [("_class", AttrValue.strSet cls)]
    from rfl]
  rw [dict_update_cons_notin _ _ [] rest hncl]
  rw [dict_update_nil_nodup rest hnd.2]

theorem renderChildren_fixpoint (k : Nat) : ∀ (cs : List Node),
    childSize cs ≤ k → wfChildren cs = true → renderChildren cs = cs := by
  induction k with
  | zero =>
    intro cs hk _
    cases cs with
    | nil => rfl
    | cons c cs2 =>
      have h1 := nodeSize_pos c
      rw [show childSize (c :: cs2) = nodeSize c + childSize cs2 from rfl] at hk
      omega
  | succ k ih =>
    intro cs hk hwf
    cases cs with
    | nil => rfl
    | cons c cs2 =>
      rw [show childSize (c :: cs2) = nodeSize c + childSize cs2 from rfl] at hk
      have hwf2 := wfChildren_cons_facts c cs2 hwf
      cases c with
      | str s =>
        rw [renderChildren, ih cs2 (by
            have h1 : nodeSize (.str s) = 1 := rfl
            omega)
          hwf2]
      | elem n a ckids =>
        rw [show wfChildren (.elem n a ckids :: cs2) =
          (wfNode (.elem n a ckids) && wfChildren cs2) from rfl,
          Bool.and_eq_true] at hwf
        obtain ⟨ty, hsub, hne, hattrs, hwfc⟩ := wfNode_elem_facts n a ckids hwf.1
        have hlow := subclasses_lower n ty hsub
        have hsz : nodeSize (.elem n a ckids) = childSize ckids + 1 := rfl
        rw [renderChildren, render, hlow, dict_update_default_attrsOK a hattrs]
        rw [ih ckids (by omega) hwfc]
        rw [shallow_normalize, shallowNormChildren_fixpoint ckids hwfc]
        rw [ih cs2 (by omega) hwf.2]

theorem render_root_fixpoint (cs : List Node) (hwf : wfChildren cs = true) :
    render (.elem "" default_attributes cs) = .elem "" default_attributes cs := by
  rw [render]
  rw [show strToLower "" = "" from rfl]
  rw [show dict_update default_attributes default_attributes =
    default_attributes from rfl]
  rw [renderChildren_fixpoint (childSize cs) cs (Nat.le_refl _) hwf]
  rw [shallow_normalize, shallowNormChildren_fixpoint cs hwf]

theorem map_shallow_fixpoint : ∀ (cs : List Node), wfChildren cs = true →
    (cs.map fun ch =>
      match ch with
      | .elem n' a' c' => shallow_normalize (.elem n' a' c')
      | ch => ch) = cs := by
  intro cs
  induction cs with
  | nil => intro _; rfl
  | cons c cs2 ih =>
    intro hwf
    have hwf2 := wfChildren_cons_facts c cs2 hwf
    rw [List.map_cons, ih hwf2]
    cases c with
    | str s => rfl
    | elem n a ckids =>
      rw [show wfChildren (.elem n a ckids :: cs2) =
        (wfNode (.elem n a ckids) && wfChildren cs2) from rfl,
        Bool.and_eq_true] at hwf
      obtain ⟨ty, hsub, hne, hattrs, hwfc⟩ := wfNode_elem_facts n a ckids hwf.1
      rw [show (match Node.elem n a ckids with
        | .elem n' a' c' => shallow_normalize (.elem n' a' c')
        | ch => ch) = shallow_normalize (.elem n a ckids) from rfl]
      rw [shallow_normalize, shallowNormChildren_fixpoint ckids hwfc]

theorem normalize_root_fixpoint (cs : List Node) (hwf : wfChildren cs = true) :
    normalize (.elem "" default_attributes cs) = .elem "" default_attributes cs := by
  rw [normalize]
  rw [map_shallow_fixpoint cs hwf]
  rw [shallow_normalize, shallowNormChildren_fixpoint cs hwf]

/-! ### Python equality is reflexive on well-formed trees -/

theorem pyEqAttrs_refl_nodup (d : List (String × AttrValue))
    (hnd : (d.map Prod.fst).Nodup) : pyEqAttrs d d = true :=
  pyEqAttrs_of_lookup d d hnd fun _ => rfl

theorem pyEqChildren_refl (k : Nat) : ∀ (cs : List Node), childSize cs ≤ k →
    wfChildren cs = true → pyEqChildren cs cs = true := by
  induction k with
  | zero =>
    intro cs hk _
    cases cs with
    | nil => rfl
    | cons c cs2 =>
      have h1 := nodeSize_pos c
      rw [show childSize (c :: cs2) = nodeSize c + childSize cs2 from rfl] at hk
      omega
  | succ k ih =>
    intro cs hk hwf
    cases cs with
    | nil => rfl
    | cons c cs2 =>
      rw [show childSize (c :: cs2) = nodeSize c + childSize cs2 from rfl] at hk
      have hwf2 := wfChildren_cons_facts c cs2 hwf
      rw [pyEqChildren, Bool.and_eq_true]
      cases c with
      | str s =>
        refine ⟨?_, ih cs2 (by
            have h1 : nodeSize (.str s) = 1 := rfl
            omega)
          hwf2⟩
        rw [pyEqNode]
        exact beq_self_eq_true s
      | elem n a ckids =>
        rw [show wfChildren (.elem n a ckids :: cs2) =
          (wfNode (.elem n a ckids) && wfChildren cs2) from rfl,
          Bool.and_eq_true] at hwf
        obtain ⟨ty, hsub, hne, hattrs, hwfc⟩ := wfNode_elem_facts n a ckids hwf.1
        have hsz : nodeSize (.elem n a ckids) = childSize ckids + 1 := rfl
        refine ⟨?_, ih cs2 (by omega) hwf.2⟩
        rw [pyEqNode, Bool.and_eq_true, Bool.and_eq_true]
        obtain ⟨cls, rest, ha, _, _, hnd⟩ := attrsOK_facts a hattrs
        refine ⟨⟨beq_self_eq_true n, ?_⟩, ih ckids (by omega) hwfc⟩
        refine pyEqAttrs_refl_nodup a ?_
        rw [ha, List.map_cons]
        exact hnd

theorem pyEqNode_root_refl (cs : List Node) (hwf : wfChildren cs = true) :
    pyEqNode (.elem "" default_attributes cs)
      (.elem "" default_attributes cs) = true := by
  rw [pyEqNode, Bool.and_eq_true, Bool.and_eq_true]
  exact ⟨⟨rfl, pyEqAttrs_refl_nodup default_attributes (by decide)⟩,
    pyEqChildren_refl (childSize cs) cs (Nat.le_refl _) hwf⟩

/-! ### The serialized root fragment -/

theorem element_str_root (cs : List Node) (hwf : wfChildren cs = true) :
    element_str (.elem "" default_attributes cs) = ⟨emitChildren cs⟩ := by
  have hemit : emitNode (.elem "" default_attributes cs) =
      '<' :: '>' :: (emitChildren cs ++ ['<', '/', '>']) := by
    rw [emitNode]
    rw [if_neg (show ¬(strToLower "" = "script" ∨ strToLower "" = "style")
      from by decide)]
    rw [if_neg (show ¬HTML_EMPTY.contains (strToLower "") = true from by decide)]
    rw [show serializeAttrs default_attributes = [] from rfl]
    rw [show ("" : String).data = [] from rfl]
    simp only [List.flatMap_nil, List.nil_append, List.cons_append,
      List.append_assoc, List.singleton_append, List.append_nil]
  have hstr : element_str (.elem "" default_attributes cs) =
      ⟨((emitNode (.elem "" default_attributes cs)).take
        ((emitNode (.elem "" default_attributes cs)).length - 3)).drop 2⟩ := by
    rw [show element_str (.elem "" default_attributes cs) =
      (let r := render (.elem "" default_attributes cs);
       let cs2 := emitNode r;
       match r with
       | .elem "" _ _ => (⟨(cs2.take (cs2.length - 3)).drop 2⟩ : String)
       | _ => ⟨cs2⟩) from rfl]
    rw [render_root_fixpoint cs hwf]
    rfl
  rw [hstr, hemit]
  have hlen : ('<' :: '>' :: (emitChildren cs ++ ['<', '/', '>'])).length - 3 =
      (emitChildren cs).length + 2 := by
    simp only [List.length_cons, List.length_append, List.length_nil]
    omega
  rw [hlen]
  rw [show (emitChildren cs).length + 2 = ((emitChildren cs).length + 1) + 1
    from rfl]
  rw [List.take_succ_cons, List.take_succ_cons, List.take_left]
  rw [show List.drop 2 ('<' :: '>' :: emitChildren cs) = emitChildren cs from rfl]

/-- Parsing the serialization of a well-formed root fragment returns the
root fragment itself (Lean-level structural equality). -/
theorem parse_str_roundtrip (cs : List Node) (hwf : wfChildren cs = true) :
    element_parse (element_str (.elem "" default_attributes cs)) =
      .ok (.elem "" default_attributes cs) := by
  rw [element_str_root cs hwf]
  rw [element_parse]
  rw [show (⟨emitChildren cs⟩ : String).data = emitChildren cs from rfl]
  rw [tokenize_emitChildren cs hwf]
  rw [show childTokens cs = childTokens cs ++ [] from (List.append_nil _).symm]
  rw [show parserInit =
    (⟨(⟨"", default_attributes, []⟩ : Frame) :: [], none⟩ : ParserState) from rfl]
  rw [feedTokens_childTokens (childSize cs) cs ⟨"", default_attributes, []⟩ []
    none [] (Nat.le_refl _) hwf]
  rw [feedTokens]
  dsimp only
  rw [List.nil_append]
  rw [parserClose]
  split
  · rename_i hgt
    simp only [List.length_cons, List.length_nil] at hgt
    omega
  · rfl

/-! ### Claim C1 -/

/-- Claim C1 as stated is false: `Element.parse` always wraps the parsed
top-level nodes in an implicit root fragment, so for a tree whose root is a
registered non-fragment element — `div()` is built only from registered
types and has no fragment ambiguity — `parse(str(tree))` is a fragment
around the tree and is not `==` to `normalize(tree)` (the claim's left and
right sides differ in type name, `""` versus `"div"`). -/
theorem round_trip_counterexample :
    element_parse (element_str (.elem "div" default_attributes [])) =
      .ok (.elem "" default_attributes [.elem "div" default_attributes []]) ∧
    normalize (.elem "div" default_attributes []) =
      .elem "div" default_attributes [] ∧
    pyEqNode (.elem "" default_attributes [.elem "div" default_attributes []])
      (normalize (.elem "div" default_attributes [])) = false :=
  ⟨rfl, rfl, rfl⟩

/-- Claim C1 (amended): for every fragment-rooted tree with the default
attributes at the root and `wfChildren` content — children built from
registered non-`script`/`style` element types, each element carrying its
`_class` set in canonical sorted enumeration plus string attributes under
round-tripping keys with distinct keys, void elements childless, text
nonempty without escape-needing characters, and no two adjacent text
children (i.e. the tree is fully normalized) — parsing the serialized form
returns exactly the tree: `Element.parse(str(tree))` equals `tree`
structurally, is `==` to `normalize(tree)` (which is `tree` itself), and
re-serializing the parsed result yields the identical string
(`str(parse(s)) == s` for `s = str(tree)`). -/
theorem round_trip_wellformed (cs : List Node) (hwf : wfChildren cs = true) :
    element_parse (element_str (.elem "" default_attributes cs)) =
      .ok (.elem "" default_attributes cs) ∧
    pyEqNode (.elem "" default_attributes cs)
      (normalize (.elem "" default_attributes cs)) = true ∧
    normalize (.elem "" default_attributes cs) = .elem "" default_attributes cs ∧
    (element_parse (element_str (.elem "" default_attributes cs))).map
      element_str = .ok (element_str (.elem "" default_attributes cs)) := by
  refine ⟨parse_str_roundtrip cs hwf, ?_, normalize_root_fixpoint cs hwf, ?_⟩
  · rw [normalize_root_fixpoint cs hwf]
    exact pyEqNode_root_refl cs hwf
  · rw [parse_str_roundtrip cs hwf]
    rfl

theorem round_trip_wellformed_witness :
    element_parse (element_str (.elem "" default_attributes
      [.elem "div" [("_class", AttrValue.strSet ["a", "b"]),
          ("id", AttrValue.str "g")]
        [.str "Hello, ", .elem "strong" default_attributes [.str "world"],
          .str "!"]])) =
      .ok (.elem "" default_attributes
        [.elem "div" [("_class", AttrValue.strSet ["a", "b"]),
            ("id", AttrValue.str "g")]
          [.str "Hello, ", .elem "strong" default_attributes [.str "world"],
            .str "!"]]) ∧
    pyEqNode (.elem "" default_attributes
        [.elem "div" [("_class", AttrValue.strSet ["a", "b"]),
            ("id", AttrValue.str "g")]
          [.str "Hello, ", .elem "strong" default_attributes [.str "world"],
            .str "!"]])
      (normalize (.elem "" default_attributes
        [.elem "div" [("_class", AttrValue.strSet ["a", "b"]),
            ("id", AttrValue.str "g")]
          [.str "Hello, ", .elem "strong" default_attributes [.str "world"],
            .str "!"]])) = true ∧
    normalize (.elem "" default_attributes
        [.elem "div" [("_class", AttrValue.strSet ["a", "b"]),
            ("id", AttrValue.str "g")]
          [.str "Hello, ", .elem "strong" default_attributes [.str "world"],
            .str "!"]]) =
      .elem "" default_attributes
        [.elem "div" [("_class", AttrValue.strSet ["a", "b"]),
            ("id", AttrValue.str "g")]
          [.str "Hello, ", .elem "strong" default_attributes [.str "world"],
            .str "!"]] ∧
    (element_parse (element_str (.elem "" default_attributes
        [.elem "div" [("_class", AttrValue.strSet ["a", "b"]),
            ("id", AttrValue.str "g")]
          [.str "Hello, ", .elem "strong" default_attributes [.str "world"],
            .str "!"]]))).map element_str =
      .ok (element_str (.elem "" default_attributes
        [.elem "div" [("_class", AttrValue.strSet ["a", "b"]),
            ("id", AttrValue.str "g")]
          [.str "Hello, ", .elem "strong" default_attributes [.str "world"],
            .str "!"]])) :=
  round_trip_wellformed
    [.elem "div" [("_class", AttrValue.strSet ["a", "b"]),
        ("id", AttrValue.str "g")]
      [.str "Hello, ", .elem "strong" default_attributes [.str "world"],
        .str "!"]] (by decide)

end Htmlcomp
